import Mathlib

/-!
Shallow embedding of the core engines of the qtip repository (SAM alignment
decoder, reservoir-sampled template library, chunkwise FASTA reader, tandem
read simulator, prediction merger and SAM rewriter), together with theorems
settling the frozen claims C1 - C10 about them.

Strings of the C++ source are modelled as `List Char` (never including the
terminating NUL); `size_t` quantities are modelled as `Nat`, with explicit
`% 2^64` / `% 2^32` arithmetic at the points where the source's unsigned
wrap-around or `int` truncation is observable.  Debug-only `assert(...)`
statements of the source have no effect in a release build and are not
modelled; where the release build would read out of bounds or throw, the
embedded function returns an error value.
-/

namespace Qtip

/-- Character class of the C `isdigit` on ASCII input. -/
def isdigitC (c : Char) : Bool :=
  '0' ≤ c && c ≤ '9'

/-- Character class of the C `isalpha` on ASCII input. -/
def isalphaC (c : Char) : Bool :=
  ('a' ≤ c && c ≤ 'z') || ('A' ≤ c && c ≤ 'Z')

/-- Character class of the C `isspace` on ASCII input. -/
def isspaceC (c : Char) : Bool :=
  c = ' ' || c = '\t' || c = '\n' || c = '\x0b' || c = '\x0c' || c = '\r'

/-- Accumulating decimal scan mirroring the C idiom
`while(isdigit(*p)) { v = v*10 + (*p++ - '0'); }`; returns the value read so
far together with the unconsumed remainder. -/
def parseDigitsFrom (acc : Nat) : List Char → Nat × List Char
  | [] => (acc, [])
  | c :: rest =>
    if isdigitC c then parseDigitsFrom (acc * 10 + (c.toNat - 48)) rest
    else (acc, c :: rest)

/-- Decimal scan starting from accumulator zero. -/
def parseDigits (l : List Char) : Nat × List Char :=
  parseDigitsFrom 0 l

/-- Decimal digit characters of a positive number, most significant first;
the fuel argument bounds the recursion depth and any fuel of at least `n`
yields all digits. -/
def decCharsAux : Nat → Nat → List Char
  | 0, _ => []
  | fuel + 1, n =>
    if n = 0 then []
    else decCharsAux fuel (n / 10) ++ [Char.ofNat (48 + n % 10)]

/-- Decimal digit characters of `n`, most significant first, as printed by
`printf` with an unsigned conversion. -/
def decChars (n : Nat) : List Char :=
  if n = 0 then ['0'] else decCharsAux (n + 1) n

/-- Decimal digit characters of a signed value as printed by `printf` with
`%d`: a minus sign followed by the digits of the magnitude when negative. -/
def decCharsInt (z : Int) : List Char :=
  if z < 0 then '-' :: decChars z.natAbs else decChars z.natAbs

/-- Value of the 64-bit unsigned difference `a - b` (wrap-around semantics of
C `size_t` subtraction). -/
def sub64 (a b : Nat) : Nat :=
  (((a : Int) - (b : Int)) % (2 ^ 64)).toNat

/-- Signed 32-bit value obtained by converting an unsigned 64-bit value to
the C `int` type (truncation to the low 32 bits, then two's-complement
reading). -/
def toInt32 (x : Nat) : Int :=
  let l : Nat := x % 2 ^ 32
  if l < 2 ^ 31 then (l : Int) else (l : Int) - 2 ^ 32

/-- Value of the C expression `abs((int)(a - b))` where `a` and `b` have type
`size_t`.  (For `|a-b|` near `2^31` the C expression is undefined behaviour;
the embedding uses the mathematical absolute value there.) -/
def cAbsDiff (a b : Nat) : Int :=
  ((toInt32 (sub64 a b)).natAbs : Int)

/-- Truncating conversion of a nonnegative rational to `size_t`, as performed
by the C casts `(size_t)(r4_uni_01() * n)` and `(size_t)(fraction * nn)`. -/
def ratFloorNat (q : ℚ) : Nat :=
  (Int.floor q).toNat

/-!  Edit transcript codec (`qsim_parse.cpp`, `edit_xscript.h`).  -/

/-- Entry of the parsed `MD:Z` run list (`struct OpRunOffset` of
`qsim_parse.cpp`): `op` is 0 for a matching run, 1 for a mismatching run, 2
for a deletion run; `offset` indexes the mismatch character buffer. -/
structure OpRunOffset where
  op : Nat
  run : Nat
  offset : Int
deriving Repr, DecidableEq

/-- State of the `MD:Z` scan of `Alignment::mdz_to_list`: characters pushed
so far and run entries emitted so far. -/
structure MdzScan where
  mdz_char : List Char
  mdz_oro : List OpRunOffset
deriving Repr, DecidableEq

/-- Loop of `Alignment::mdz_to_list`: walk the `MD:Z` string, emitting a
match run for each positive digit run, a mismatch run for each alphabetic
run, and a deletion run after each caret.  Unexpected characters only
produce a diagnostic in the source and are skipped; the embedding skips them
likewise. -/
def mdz_to_list_loop : List Char → MdzScan → MdzScan
  | [], s => s
  | c :: rest, s =>
    if isdigitC c then
      let run := (parseDigitsFrom (c.toNat - 48) (rest.takeWhile isdigitC)).1
      let s' := if 0 < run then
          { s with mdz_oro := s.mdz_oro ++ [⟨0, run, -1⟩] }
        else s
      mdz_to_list_loop (rest.dropWhile isdigitC) s'
    else if isalphaC c then
      let seg := c :: rest.takeWhile isalphaC
      let s' := { mdz_char := s.mdz_char ++ seg,
                  mdz_oro := s.mdz_oro ++ [⟨1, seg.length, (s.mdz_char.length : Int)⟩] }
      mdz_to_list_loop (rest.dropWhile isalphaC) s'
    else if c = '^' then
      let seg := rest.takeWhile isalphaC
      let s' := { mdz_char := s.mdz_char ++ seg,
                  mdz_oro := s.mdz_oro ++ [⟨2, seg.length, (s.mdz_char.length : Int)⟩] }
      mdz_to_list_loop (rest.dropWhile isalphaC) s'
    else
      mdz_to_list_loop rest s
termination_by l => l.length
decreasing_by
  all_goals simp only [List.length_cons]
  · exact Nat.lt_succ_of_le (List.dropWhile_sublist _).length_le
  · exact Nat.lt_succ_of_le (List.dropWhile_sublist _).length_le
  · exact Nat.lt_succ_of_le (List.dropWhile_sublist _).length_le
  · exact Nat.lt_succ_of_le (Nat.le_refl _)

/-- Result of `Alignment::mdz_to_list` on a whole `MD:Z` string. -/
def mdz_to_list (mdz : List Char) : List OpRunOffset :=
  (mdz_to_list_loop mdz ⟨[], []⟩).mdz_oro

/-- Inner `while` loop of `Alignment::cigar_and_mdz_to_edit_xscript` for a
CIGAR `M` run: consume match/mismatch runs from the `MD:Z` run list while
read positions remain, splitting a match run that extends past the end of
the `M` run; emit one `=` per matched position and one `X` per position of a
mismatch run.  Returns the emitted characters and the remaining (possibly
split) run list. -/
def mdzMunch : Nat → List OpRunOffset → List Char × List OpRunOffset
  | _, [] => ([], [])
  | runleft, e :: rest =>
    if runleft = 0 then ([], e :: rest)
    else
      let run_comb := min runleft e.run
      let emitted := if e.op = 0 then List.replicate run_comb '='
        else List.replicate e.run 'X'
      if run_comb < e.run then
        (emitted, ⟨e.op, e.run - run_comb, e.offset⟩ :: rest)
      else
        let r := mdzMunch (runleft - run_comb) rest
        (emitted ++ r.1, r.2)

/-- Body of `Alignment::cigar_and_mdz_to_edit_xscript`: walk the CIGAR run
list in order, expanding `M` runs against the `MD:Z` run list via `mdzMunch`
and the remaining operators directly.  `P`, `=`, `X` and unknown operators
throw in the source; a `D` run with no remaining `MD:Z` entry would read out
of bounds.  Both are mapped to `Except.error`. -/
def cigar_and_mdz_to_edit_xscript : List (Char × Nat) → List OpRunOffset →
    Except Unit (List Char)
  | [], _ => .ok []
  | (cop, crun) :: rest, oro =>
    if cop = 'M' then
      let r := mdzMunch crun oro
      (cigar_and_mdz_to_edit_xscript rest r.2).map (r.1 ++ ·)
    else if cop = 'I' then
      (cigar_and_mdz_to_edit_xscript rest oro).map (List.replicate crun 'I' ++ ·)
    else if cop = 'D' then
      match oro with
      | [] => .error ()
      | e :: oro' =>
        (cigar_and_mdz_to_edit_xscript rest oro').map (List.replicate e.run 'D' ++ ·)
    else if cop = 'N' then
      (cigar_and_mdz_to_edit_xscript rest oro).map (List.replicate crun 'N' ++ ·)
    else if cop = 'S' then
      (cigar_and_mdz_to_edit_xscript rest oro).map (List.replicate crun 'S' ++ ·)
    else if cop = 'H' then
      cigar_and_mdz_to_edit_xscript rest oro
    else
      .error ()

/-- Predicate for the reference-consuming transcript characters counted by
`edit_xscript_to_rflen` of `edit_xscript.h`. -/
def isRefChar (c : Char) : Bool :=
  c = 'S' || c = '=' || c = 'X' || c = 'D'

/-- Number of reference characters involved in an alignment, per
`edit_xscript_to_rflen` of `edit_xscript.h`. -/
def edit_xscript_to_rflen (xs : List Char) : Nat :=
  xs.countP isRefChar

/-!  Geometry helpers of `struct Alignment` (`qsim_parse.cpp`).  -/

/-- Leading-clip length recorded by `Alignment::parse_cigar`: the run of the
first CIGAR operation when that operation is `S`, else 0. -/
def cigar_left_clip : List (Char × Nat) → Nat
  | [] => 0
  | (op, run) :: _ => if op = 'S' then run else 0

/-- Pointer position reached by the skip loop `while(*xs++ == 'S');` of
`Alignment::rpos`: the loop consumes the leading run of `S` characters and,
because of the post-increment, also the first character that follows it. -/
def rposSkip : List Char → List Char
  | [] => []
  | c :: rest => if c = 'S' then rposSkip rest else rest

/-- Value of `Alignment::rpos()`: `pos` plus the number of
reference-consuming characters seen by the counting loop, minus one.  The
counting loop starts at the position returned by `rposSkip`. -/
def rpos (pos : Nat) (xs : List Char) : Nat :=
  pos + (rposSkip xs).countP isRefChar - 1

/-- Value of `Alignment::lpos()`: `pos - left_clip` in `size_t` arithmetic. -/
def lpos (pos left_clip : Nat) : Nat :=
  sub64 pos left_clip

/-- Geometry-relevant fields of one parsed alignment. -/
structure AlnGeom where
  pos : Nat
  cigar : List (Char × Nat)
  xscript : List Char
deriving Repr, DecidableEq

/-- Value of `Alignment::fragment_length`: the mate with the smaller `pos`
is upstream (ties go to the first argument); the result is the downstream
mate's `rpos` minus the upstream mate's `lpos`, plus one.  The SAM `TLEN`
field does not appear among the inputs: the parser discards it
(`strtok(NULL, "\t"); // ignore tlen`). -/
def fragment_length (al1 al2 : AlnGeom) : Nat :=
  let up := if al1.pos < al2.pos then al1 else al2
  let dn := if al1.pos < al2.pos then al2 else al1
  rpos dn.pos dn.xscript - lpos up.pos (cigar_left_clip up.cigar) + 1

/-!  Reservoir-sampled template list (`ds.h`) and its caller
(`print_unpaired` of `qsim_parse.cpp`).  -/

/-- Reservoir-sampled list (`ReservoirSampledEList` of `ds.h`): capacity
`k`, observed count `n`, and the retained list.  A slot freshly created by
`expand()` is uninitialized; the embedding marks it `none` until the caller
writes it. -/
structure RSEList (T : Type) where
  k : Nat
  n : Nat
  list : List (Option T)
deriving Repr, DecidableEq

/-- Fresh reservoir of capacity `k` (constructor of
`ReservoirSampledEList`). -/
def RSEList.mk0 (T : Type) (k : Nat) : RSEList T :=
  ⟨k, 0, []⟩

/-- Embedding of `ReservoirSampledEList::add_part1`: increment `n`; while
the retained list is shorter than `k`, append an uninitialized slot and
return its index; otherwise return `(size_t)(r4_uni_01() * n_)`, a draw in
`[0, n)` whose value is at least `k` exactly when the item is rejected.
The uniform draw `u` is passed in as an oracle in `[0, 1)`. -/
def RSEList.add_part1 {T : Type} (s : RSEList T) (u : ℚ) : RSEList T × Nat :=
  let n1 := s.n + 1
  if s.list.length < s.k then
    let l := s.list ++ [none]
    (⟨s.k, n1, l⟩, l.length - 1)
  else
    (⟨s.k, n1, s.list⟩, ratFloorNat (u * n1))

/-- Template-store insertion as performed by `print_unpaired` (and
`print_paired_helper`) of `qsim_parse.cpp`: call `add_part1`; when the
returned offset is below `k`, initialize `list().back()` - the last element
of the retained list - with the new template.  The returned offset is kept
in the result for inspection. -/
def RSEList.store_add {T : Type} (s : RSEList T) (u : ℚ) (t : T) :
    RSEList T × Nat :=
  let r := s.add_part1 u
  if r.2 < r.1.k then
    (⟨r.1.k, r.1.n, r.1.list.set (r.1.list.length - 1) (some t)⟩, r.2)
  else
    r

/-- Number of items the sampler has observed (`ReservoirSampledEList::size`,
which returns `n_`). -/
def RSEList.size {T : Type} (s : RSEList T) : Nat :=
  s.n

/-!  Simulator budget (`simplesim.cpp`, `input_model.h`).  -/

/-- Embedding of `InputModelUnpaired::num_added` (and the paired variant) of
`input_model.h`: the value returned is `ts_.size()`, the length of the
retained template list handed to the model's constructor. -/
def num_added {T : Type} (ts : List T) : Nat :=
  ts.length

/-- Embedding of `apply_function` of `simplesim.cpp`: zero when `n` is zero,
otherwise `max((size_t)(fraction * f(n)), mn)`.  The parameter `f` abstracts
the double-precision `x` or `sqrt(x)` selected by the `function` argument;
rational arithmetic reproduces the double computation exactly for the linear
case on moderately sized inputs. -/
def apply_function (fraction : ℚ) (f : Nat → ℚ) (mn n : Nat) : Nat :=
  if n = 0 then 0 else max (ratFloorNat (fraction * f n)) mn

/-!  Simulated-read name encoding (`simplesim.h`, `simplesim.cpp`) and the
correctness oracle `Alignment::set_correctness` (`qsim_parse.cpp`).  -/

/-- Fixed name prefix written by the simulator (`SIM_STARTSWITH_LITERAL`). -/
def sim_startswith : List Char :=
  ['q', 's', 'i', 'm', '!']

/-- Fixed separator written between the fields of a simulated read name. -/
def sim_sep : List Char :=
  [':']

/-- Strand character written by `SimulatedRead::write`. -/
def fwChar (fw : Bool) : Char :=
  if fw then '+' else '-'

/-- Read name written by `SimulatedRead::write` for an unpaired simulated
read (the leading FASTQ `@` is not part of the name). -/
def simNameUnp (refid : List Char) (fw : Bool) (refoff : Nat) (score : Int)
    (typ : List Char) : List Char :=
  sim_startswith ++ sim_sep ++ refid ++ sim_sep ++ [fwChar fw] ++ sim_sep ++
  decChars refoff ++ sim_sep ++ decCharsInt score ++ sim_sep ++ typ

/-- Read name written by `SimulatedRead::write_pair` for a simulated pair:
both mates' tuples concatenated, ending in the type label. -/
def simNamePair (refid1 : List Char) (fw1 : Bool) (refoff1 : Nat) (score1 : Int)
    (refid2 : List Char) (fw2 : Bool) (refoff2 : Nat) (score2 : Int)
    (typ : List Char) : List Char :=
  sim_startswith ++ sim_sep ++ refid1 ++ sim_sep ++ [fwChar fw1] ++ sim_sep ++
  decChars refoff1 ++ sim_sep ++ decCharsInt score1 ++ sim_sep ++
  refid2 ++ sim_sep ++ [fwChar fw2] ++ sim_sep ++
  decChars refoff2 ++ sim_sep ++ decCharsInt score2 ++ sim_sep ++ typ

/-- Mate flag of a SAM record (`Alignment::mate_flag`): `1` when bit 0x40 is
set, else `2` when bit 0x80 is set, else `0`. -/
def mate_flag (flag : Nat) : Char :=
  if flag &&& 64 ≠ 0 then '1' else if flag &&& 128 ≠ 0 then '2' else '0'

/-- Forward-strand test of a SAM record (`Alignment::is_fw`). -/
def is_fw (flag : Nat) : Bool :=
  flag &&& 16 == 0

/-- First character of a C string modelled as a list: the terminating NUL
when the list is empty. -/
def headChar (l : List Char) : Char :=
  l.headD (Char.ofNat 0)

/-- Remainder after the optional minus sign and the digit run of the score
field, as consumed by the score-parsing loops of `set_correctness`. -/
def skipScore (l : List Char) : List Char :=
  match l with
  | '-' :: r => (parseDigitsFrom 0 r).2
  | _ => (parseDigitsFrom 0 l).2

/-- Branch of `set_correctness` taken when the read name carries the
simulator's `qsim!` prefix.  `q` is the name with the prefix already
removed; every early `return` of the source is a leaf.  `m2` abbreviates
`mate_flag() == '2'`. -/
def simDecide (q rname : List Char) (pos : Nat) (fw : Bool) (m2 : Bool)
    (wiggle : Int) : Int :=
  let q := q.drop sim_sep.length
  if ¬m2 ∧ ¬rname.isPrefixOf q then 0 else
  let q := q.drop rname.length
  if ¬sim_sep.isPrefixOf q then 0 else
  let q := q.drop sim_sep.length
  if ¬m2 ∧ headChar q ≠ fwChar fw then 0 else
  let q := q.drop 1
  if ¬sim_sep.isPrefixOf q then 0 else
  let q := q.drop sim_sep.length
  let p1 := parseDigitsFrom 0 q
  if ¬m2 ∧ cAbsDiff p1.1 (sub64 pos 1) ≥ wiggle then 0 else
  let q := p1.2
  if ¬sim_sep.isPrefixOf q then 0 else
  let q := q.drop sim_sep.length
  let q := skipScore q
  if ¬sim_sep.isPrefixOf q then 0 else
  let q := q.drop sim_sep.length
  if headChar q = 'u' ∧ (q.drop 1 = [] ∨ isspaceC (headChar (q.drop 1))) then 1 else
  if ¬m2 then 1 else
  if ¬rname.isPrefixOf q then 0 else
  let q := q.drop rname.length
  if ¬sim_sep.isPrefixOf q then 0 else
  let q := q.drop sim_sep.length
  if headChar q ≠ fwChar fw then 0 else
  let q := q.drop 1
  if ¬sim_sep.isPrefixOf q then 0 else
  let q := q.drop sim_sep.length
  let p2 := parseDigitsFrom 0 q
  if cAbsDiff p2.1 (sub64 pos 1) ≥ wiggle then 0 else
  let q := p2.2
  if ¬sim_sep.isPrefixOf q then 0 else
  let q := q.drop sim_sep.length
  let q := skipScore q
  if ¬sim_sep.isPrefixOf q then 0 else
  1

/-- Remainder of a list after the colon-skipping loop
`while(ncolon > 0) { if(*qname_cur++ == ':') ncolon--; }` of the wgsim
branch. -/
def dropThroughColons : Nat → List Char → List Char
  | 0, l => l
  | _ + 1, [] => []
  | n + 1, c :: rest =>
    if c = ':' then dropThroughColons n rest else dropThroughColons (n + 1) rest

/-- Remainder of a list after `while(isdigit(*qname_cur++));`: the digit run
and, because of the post-increment, one further character are consumed. -/
def skipDigitsPlusOne (l : List Char) : List Char :=
  (parseDigitsFrom 0 l).2.drop 1

/-- Branch of `set_correctness` for wgsim-style names, reached when the name
holds at least eight underscores and exactly four colons.  Returns the final
`correct` value of that branch. -/
def wgsimDecide (qname rname : List Char) (pos : Nat) (m2 : Bool)
    (wiggle : Int) : Int :=
  if ¬rname.isPrefixOf qname then 0 else
  let q := (qname.drop rname.length)
  if headChar q ≠ '_' then 0 else
  let q := q.drop 1
  let pa := parseDigitsFrom 0 q
  let frag_start := pa.1
  if headChar pa.2 ≠ '_' then 0 else
  let q := pa.2.drop 1
  let pb := parseDigitsFrom 0 q
  let frag_end := pb.1
  if headChar pb.2 ≠ '_' then 0 else
  let q := pb.2.drop 1
  let q := dropThroughColons 4 q
  let q := skipDigitsPlusOne q
  let pc := parseDigitsFrom 0 q
  let len1 := pc.1
  if headChar pc.2 ≠ '_' then 0 else
  let q := pc.2.drop 1
  let pd := parseDigitsFrom 0 q
  let len2 := pd.1
  if headChar pd.2 ≠ '_' then 0 else
  let q := pd.2.drop 1
  let flip := headChar q == '1'
  let mate1 := !m2
  let len := if mate1 then len1 else len2
  if (!flip) == mate1 then
    if cAbsDiff pos frag_start < wiggle then 1 else 0
  else
    if cAbsDiff pos ((sub64 frag_end len + 1) % 2 ^ 64) < wiggle then 1 else 0

/-- Embedding of `Alignment::set_correctness` for an aligned record: decide
the `correct` field from the read name, the reference name, the 1-based
`pos`, the flag and the wiggle tolerance.  Names with the simulator's prefix
go through `simDecide`; names with at least eight underscores and exactly
four colons go through `wgsimDecide`; all other names leave `correct`
at -1. -/
def set_correctness (qname rname : List Char) (flag : Nat) (pos : Nat)
    (wiggle : Int) : Int :=
  let m2 := mate_flag flag = '2'
  if sim_startswith.isPrefixOf qname then
    simDecide (qname.drop sim_startswith.length) rname pos (is_fw flag) m2 wiggle
  else
    let nund := qname.count '_'
    let ncolon := qname.count ':'
    if 8 ≤ nund ∧ ncolon = 4 then
      wgsimDecide qname rname pos m2 wiggle
    else
      (-1)

/-!  SAM scanner `sam_pass1` (`qsim_parse.cpp`): line ordinals and the
two-slot pairing of successive records.  -/

/-- First tab-delimited field of a raw SAM line together with the remainder
after the tab, as produced by one `strtok(..., "\t")` step. -/
def fieldTok (l : List Char) : List Char × List Char :=
  (l.takeWhile (· ≠ '\t'), (l.dropWhile (· ≠ '\t')).drop 1)

/-- Query name of a raw SAM line: its first tab-delimited field. -/
def samQname (l : List Char) : List Char :=
  (fieldTok l).1

/-- Flag of a raw SAM line: `atoi` of its second tab-delimited field. -/
def samFlag (l : List Char) : Nat :=
  (parseDigits (fieldTok (fieldTok l).2).1).1

/-- Header test of `sam_pass1` and of the rewriter: the line begins with
`@`. -/
def isHeaderLine (l : List Char) : Bool :=
  l.head? = some '@'

/-- Line ordinals assigned by `sam_pass1`: `nline` is incremented for every
line read (headers and secondary alignments included); header lines and
records with flag bit 0x800 are then skipped; every processed record `r`
receives `r.line = nline`.  The result lists each processed record with its
assigned ordinal. -/
def scanOrdinals (nline : Nat) : List (List Char) → List (List Char × Nat)
  | [] => []
  | l :: rest =>
    let n := nline + 1
    if isHeaderLine l then scanOrdinals n rest
    else if samFlag l &&& 2048 ≠ 0 then scanOrdinals n rest
    else (l, n) :: scanOrdinals n rest

/-- Pairing pass of `sam_pass1` reduced to its linking decision.  The state
is the previous non-secondary record when that record was stored with
`valid = true` (a paired record whose mate had not yet been seen); the
two-slot rotation makes any older stored record unreachable as soon as a new
record is processed, so a single optional slot is faithful.  A link is made
exactly when the current record's mate flag is not `0` and the previous
record is stored; mate-1/mate-2 roles are assigned from the current record's
0x40 bit.  Each linked pair is emitted as `(mate1, mate2)`, each mate being
`(qname, flag)`. -/
def scanPairsLoop (prev : Option (List Char × Nat)) :
    List (List Char) → List ((List Char × Nat) × (List Char × Nat))
  | [] => []
  | l :: rest =>
    if isHeaderLine l then scanPairsLoop prev rest
    else
      let f := samFlag l
      if f &&& 2048 ≠ 0 then scanPairsLoop prev rest
      else
        let cur := (samQname l, f)
        match prev with
        | some p =>
          if mate_flag f ≠ '0' then
            let pr := if mate_flag f = '1' then (cur, p) else (p, cur)
            pr :: scanPairsLoop none rest
          else
            scanPairsLoop none rest
        | none =>
          if mate_flag f = '0' then scanPairsLoop none rest
          else scanPairsLoop (some cur) rest

/-- Linked pairs produced by one pass of `sam_pass1` over the given raw
lines. -/
def scanPairs (lines : List (List Char)) :
    List ((List Char × Nat) × (List Char × Nat)) :=
  scanPairsLoop none lines

/-!  SAM rewriter (`qtip_rewrite.cpp`).  -/

/-- Output line of the rewriter: either an input line copied verbatim, or an
input line whose MAPQ field was replaced using the given prediction.  The
textual surgery performed by `rewrite()` (rounding, `ZT:Z` stripping,
provenance tags) is abstracted into the constructor tag, since no claim
concerns its field-level details. -/
inductive RwOut where
  | pass (l : List Char)
  | rewritten (l : List Char) (mapq : ℚ)
deriving Repr, DecidableEq

/-- Main loop of `qtip_rewrite.cpp`: `nline` is incremented for every SAM
line read; lines beginning with `@` are copied through (after the
increment); otherwise, while the current prediction's line exceeds `nline`
or no predictions remain the line is copied through, and when the current
prediction's line has been reached the line is rewritten and the next
prediction is fetched. -/
def rewriteLoop (preds : List (Nat × ℚ)) (nline : Nat) :
    List (List Char) → List RwOut
  | [] => []
  | l :: rest =>
    let n := nline + 1
    if isHeaderLine l then .pass l :: rewriteLoop preds n rest
    else
      match preds with
      | [] => .pass l :: rewriteLoop [] n rest
      | (lp, q) :: ps =>
        if lp > n then .pass l :: rewriteLoop preds n rest
        else .rewritten l q :: rewriteLoop ps n rest

/-- Rewriter applied to a whole SAM file and prediction list. -/
def qtip_rewrite (sam : List (List Char)) (preds : List (Nat × ℚ)) :
    List RwOut :=
  rewriteLoop preds 0 sam

/-!  Chunkwise FASTA reader (`fasta.cpp`, `fasta.h`).  -/

/-- Base upper-casing table `dna_upper` of `fasta.cpp`: the eight characters
`ACGTacgt` map to their upper-case forms, everything else to `N`. -/
def dna_upper (c : Char) : Char :=
  if c = 'A' ∨ c = 'a' then 'A'
  else if c = 'C' ∨ c = 'c' then 'C'
  else if c = 'G' ∨ c = 'g' then 'G'
  else if c = 'T' ∨ c = 't' then 'T'
  else 'N'

/-- Window yielded by `FastaChunkwiseParser::next`: the index of the
reference record it came from (references are counted in order of their `>`
deflines), the `refoff` output parameter, and the returned buffer contents
of length `retsz`. -/
structure FaWindow where
  refidx : Nat
  refoff : Nat
  content : List Char
deriving Repr, DecidableEq

mutual

/-- Reading loop of `FastaChunkwiseParser::next`, iterated over all calls.
`carry` holds the overlap bytes moved to the front of the buffer after the
previous window (empty when the previous window was shorter than `olap` or
the buffer was reset); `written` holds the bytes of the current window read
since; `refoffT` is the running `refoff_` counter of bases consumed in the
current reference; `refidx` counts deflines seen.  A window is emitted when
the buffer reaches `chunksz`, and the partial window is emitted at a `>` or
at end of input when at least one base was read since the last emission.
The source's pushback of the terminating `>` is modelled by entering the
defline state directly. -/
def faLoop (chunksz olap : Nat) :
    List Char → List Char → List Char → Nat → Nat → List FaWindow
  | [], carry, written, refoffT, refidx =>
    if written.isEmpty then []
    else [⟨refidx, refoffT - (carry.length + written.length), carry ++ written⟩]
  | c :: rest, carry, written, refoffT, refidx =>
    if c = '>' then
      if written.isEmpty then faDefline chunksz olap rest (refidx + 1)
      else
        ⟨refidx, refoffT - (carry.length + written.length), carry ++ written⟩ ::
          faDefline chunksz olap rest (refidx + 1)
    else if isspaceC c then faLoop chunksz olap rest carry written refoffT refidx
    else
      let w := written ++ [dna_upper c]
      let r := refoffT + 1
      if carry.length + w.length = chunksz then
        let content := carry ++ w
        let carry' := if olap ≤ content.length then
            content.drop (content.length - olap)
          else []
        ⟨refidx, r - chunksz, content⟩ :: faLoop chunksz olap rest carry' [] r refidx
      else faLoop chunksz olap rest carry w r refidx

/-- Defline state of the reader: after a `>` seen with an empty window the
buffer and `refoff_` are reset, the defline is consumed up to and including
its newline, and reading resumes for the next reference. -/
def faDefline (chunksz olap : Nat) : List Char → Nat → List FaWindow
  | [], _ => []
  | c :: rest, refidx =>
    if c = '\n' ∨ c = '\r' then faLoop chunksz olap rest [] [] 0 refidx
    else faDefline chunksz olap rest refidx

end

/-- Windows yielded by repeated calls of `FastaChunkwiseParser::next` over
one FASTA input. -/
def fastaWindows (chunksz olap : Nat) (input : List Char) : List FaWindow :=
  faLoop chunksz olap input [] [] 0 0

/-!  Prediction merger (`predmerge.h`, `predmerge.cpp`).  -/

/-- Largest `uint64_t` value, used by `Prediction::reset` as the invalid
line sentinel. -/
def U64MAX : Nat :=
  2 ^ 64 - 1

/-- Prediction record (`struct Prediction` of `predmerge.h`). -/
structure Prediction where
  line : Nat
  mapq : ℚ
deriving Repr, DecidableEq

/-- Reset prediction (`Prediction::reset`): the invalid sentinel. -/
def Prediction.sentinel : Prediction :=
  ⟨U64MAX, 0⟩

/-- Validity test (`Prediction::valid`). -/
def Prediction.valid (p : Prediction) : Bool :=
  p.line ≠ U64MAX

/-- Per-file state of the merger: current head prediction `preds_[i]`, the
unread remainder of the file, and the `done_[i]` bit. -/
structure FileState where
  pred : Prediction
  rest : List Prediction
  done : Bool
deriving Repr, DecidableEq

/-- Embedding of `PredictionMerger::advanceFile`: read the next record of
one file into its head slot, or at end of file set `done`, reset the head to
the sentinel and report failure. -/
def advanceFileFS (fs : FileState) : FileState × Bool :=
  match fs.rest with
  | [] => (⟨Prediction.sentinel, [], true⟩, false)
  | r :: rs => (⟨r, rs, fs.done⟩, true)

/-- State of `PredictionMerger`: all file states plus the fast-path index
`next_` (-1 when the next file is unknown). -/
structure MergerState where
  files : List FileState
  next_ : Int
deriving Repr, DecidableEq

/-- Initial state of one file as produced by the merger's constructor, which
calls `advanceFile` once per file on a default-constructed head. -/
def initFS (recs : List Prediction) : FileState :=
  (advanceFileFS ⟨Prediction.sentinel, recs, false⟩).1

/-- Merger constructor over a list of files, each given as its list of
records. -/
def mkMerger (files : List (List Prediction)) : MergerState :=
  ⟨files.map initFS, -1⟩

/-- Linear argmin scan of `PredictionMerger::next`: walk the files in index
order, tracking the least head line strictly below the running minimum
(initially `UINT64_MAX`) among files that are not done; return the argmin
index (-1 when none) and the minimum line. -/
def scanArgmin (fss : List FileState) : Int × Nat :=
  fss.enum.foldl
    (fun acc p =>
      if ¬p.2.done ∧ p.2.pred.line < acc.2 then ((p.1 : Int), p.2.pred.line)
      else acc)
    (-1, U64MAX)

/-- Default file state used to model an out-of-range vector access (never
reached from a well-formed state). -/
def FileState.oob : FileState :=
  ⟨Prediction.sentinel, [], true⟩

/-- Embedding of `PredictionMerger::next`.  When `next_` is nonnegative the
record of that file is returned directly and the file advanced; `next_` is
cleared unless the refreshed head line is exactly one more than the returned
line (computed in `uint64_t` arithmetic).  Otherwise a linear argmin scan
selects the file with the least head line; if none remains, the invalid
sentinel is returned; otherwise that file's head is returned, the file is
advanced, and `next_` is set to it exactly when the advance hit end of file
and left a head line one greater than the returned line. -/
def mergerNext (s : MergerState) : Prediction × MergerState :=
  if s.next_ ≥ 0 then
    let f := s.next_.toNat
    let fs := s.files.getD f FileState.oob
    let np := fs.pred
    let adv := advanceFileFS fs
    let files' := s.files.set f adv.1
    if adv.2 then (np, ⟨files', s.next_⟩)
    else if adv.1.pred.line ≠ (np.line + 1) % 2 ^ 64 then (np, ⟨files', -1⟩)
    else (np, ⟨files', s.next_⟩)
  else
    let sc := scanArgmin s.files
    if sc.1 = -1 then (Prediction.sentinel, s)
    else
      let a := sc.1.toNat
      let fs := s.files.getD a FileState.oob
      let np := fs.pred
      if fs.done then (np, s)
      else
        let adv := advanceFileFS fs
        let files' := s.files.set a adv.1
        if adv.2 then (np, ⟨files', -1⟩)
        else if adv.1.pred.line = (np.line + 1) % 2 ^ 64 then
          (np, ⟨files', (a : Int)⟩)
        else (np, ⟨files', -1⟩)

/-- Trace of `n` successive `next()` calls. -/
def mergerRun (s : MergerState) : Nat → List Prediction
  | 0 => []
  | n + 1 =>
    let r := mergerNext s
    r.1 :: mergerRun r.2 n

/-- Modelled from the spec: one step of the straightforward linear-argmin
merge that §4.8 names as the baseline the fast path refines - scan the
remaining records of every file, yield the head with the least line
(sentinel when all are exhausted), and drop it. -/
def naiveScan (rem : List (List Prediction)) : Int × Nat :=
  rem.enum.foldl
    (fun acc p =>
      match p.2 with
      | [] => acc
      | r :: _ => if r.line < acc.2 then ((p.1 : Int), r.line) else acc)
    (-1, U64MAX)

/-- Modelled from the spec: the naive merge step on the lists of remaining
records. -/
def naiveNext (rem : List (List Prediction)) :
    Prediction × List (List Prediction) :=
  let sc := naiveScan rem
  if sc.1 = -1 then (Prediction.sentinel, rem)
  else
    match rem.getD sc.1.toNat [] with
    | [] => (Prediction.sentinel, rem)
    | r :: rs => (r, rem.set sc.1.toNat rs)

/-- Trace of `n` successive naive merge steps. -/
def naiveRun (rem : List (List Prediction)) : Nat → List Prediction
  | 0 => []
  | n + 1 =>
    let r := naiveNext rem
    r.1 :: naiveRun r.2 n

/-- State reached after `n` calls of `next()`. -/
def mergerSteps (s : MergerState) : Nat → MergerState
  | 0 => s
  | n + 1 => mergerSteps (mergerNext s).2 n

/-- Remaining-records view of the merger's file states: a done file has no
remaining records, a live file has its head followed by its unread tail. -/
def remOf (fss : List FileState) : List (List Prediction) :=
  fss.map (fun fs => if fs.done then [] else fs.pred :: fs.rest)

/-- Line ordinals of all records of all files, in file order. -/
def linesOf (files : List (List Prediction)) : List Nat :=
  files.flatten.map Prediction.line

/-- Well-formedness of a collection of prediction files: each file strictly
ascending in `line`, no line repeated within or across files, and every line
representable (below `UINT64_MAX - 1`, as is forced by the on-disk `float64`
encoding of lines). -/
def WFfiles (files : List (List Prediction)) : Prop :=
  (∀ f ∈ files, List.Chain' (fun p q => p.line < q.line) f) ∧
  (linesOf files).Nodup ∧
  ∀ p ∈ files.flatten, p.line < U64MAX - 1

/-- Chained invariant of the FASTA window stream, relative to the previous
window when one exists: a window following one of the same reference
overlaps it by `olap` and advances `refoff` by `chunksz - olap` (and the
earlier window is full); a window of a new reference starts at `refoff`
0. -/
def chainOK (chunksz olap : Nat) : Option FaWindow → List FaWindow → Prop
  | _, [] => True
  | prev, w :: ws =>
    (match prev with
     | none => w.refoff = 0
     | some p =>
       if w.refidx = p.refidx then
         p.content.length = chunksz ∧
         w.content.take olap = p.content.drop (chunksz - olap) ∧
         w.refoff = p.refoff + (chunksz - olap)
       else w.refoff = 0)
    ∧ chainOK chunksz olap (some w) ws

end Qtip

namespace Qtip

/-!  Helper lemmas.  -/

/-- Scan with runleft zero consumes nothing. -/
theorem mdzMunch_zero (l : List OpRunOffset) : mdzMunch 0 l = ([], l) := by
  cases l <;> simp [mdzMunch]

/-- Parsed run list of the `MD:Z` value `5`. -/
theorem mdz_to_list_five : mdz_to_list ['5'] = [⟨0, 5, -1⟩] := by
  simp [mdz_to_list, mdz_to_list_loop, parseDigitsFrom, isdigitC]

/-!  Theorems for the claims.  -/

/-- C2.  When the CIGAR has no `=`/`X` operator, the transcript is built by
walking the CIGAR and consuming `MD:Z` runs in order: a match run extending
past the end of a CIGAR `M` run is split, the consumed part emitted as `=`
and the remainder left at the head of the run list; and on CIGAR `3M1I2M`
with `MD:Z` value `5` the transcript is exactly `===I==`, whose reference
length is 5. -/
theorem C2_edit_xscript_from_cigar_and_mdz :
    (∀ (m r : Nat) (o : Int) (rest : List OpRunOffset), 0 < m → m ≤ r →
        mdzMunch m (⟨0, r, o⟩ :: rest) =
          (List.replicate m '=', if m < r then ⟨0, r - m, o⟩ :: rest else rest))
    ∧ cigar_and_mdz_to_edit_xscript [('M', 3), ('I', 1), ('M', 2)] (mdz_to_list ['5'])
        = Except.ok ['=', '=', '=', 'I', '=', '=']
    ∧ edit_xscript_to_rflen ['=', '=', '=', 'I', '=', '='] = 5 := by
  refine ⟨?_, ?_, by decide⟩
  · intro m r o rest hm hr
    have hmin : min m r = m := Nat.min_eq_left hr
    by_cases hlt : m < r
    · simp [mdzMunch, Nat.pos_iff_ne_zero.mp hm, hmin, hlt]
    · have heq : m = r := Nat.le_antisymm hr (Nat.not_lt.mp hlt)
      have hr0 : r ≠ 0 := by omega
      simp [mdzMunch, Nat.pos_iff_ne_zero.mp hm, hmin, hlt, heq, mdzMunch_zero, hr0]
  · rw [mdz_to_list_five]; rfl

/-- C2 witness: the split rule applied at the claim's own instance, the `M 3`
run against the match run of length 5. -/
theorem C2_witness :
    mdzMunch 3 [⟨0, 5, -1⟩] = (List.replicate 3 '=', [⟨0, 2, -1⟩]) := by
  have h := C2_edit_xscript_from_cigar_and_mdz.1 3 5 (-1) [] (by decide) (by decide)
  simpa using h

/-- C6.  `add_part1` increments the observed count and, with the reservoir
of capacity 2 full and the uniform draw 0, returns the accepted slot 0; but
the caller (`print_unpaired`) then populates `list().back()`, so the new
template lands in slot 1 and slot 0 still holds its old entry - not the
returned slot. -/
theorem C6_accepted_slot_not_populated :
    (∀ (s : RSEList Nat) (u : ℚ), (s.add_part1 u).1.n = s.n + 1)
    ∧ ((⟨2, 2, [some 10, some 20]⟩ : RSEList Nat).add_part1 0).2 = 0
    ∧ ((⟨2, 2, [some 10, some 20]⟩ : RSEList Nat).add_part1 0).2 <
        (⟨2, 2, [some 10, some 20]⟩ : RSEList Nat).k
    ∧ ((⟨2, 2, [some 10, some 20]⟩ : RSEList Nat).store_add 0 99).1.list
        = [some 10, some 99]
    ∧ ((⟨2, 2, [some 10, some 20]⟩ : RSEList Nat).store_add 0 99).1.list.getD 0 none
        = some 10 := by
  refine ⟨?_, ?_, ?_, ?_, ?_⟩
  · intro s u
    by_cases h : s.list.length < s.k <;> simp [RSEList.add_part1, h]
  all_goals simp [RSEList.add_part1, RSEList.store_add, ratFloorNat]

/-- C9.  `apply_function` returns zero on a zero count; but the count the
simulator feeds it, `num_added()`, is the length of the retained sample
list, not the store's observed total `n`: with capacity 1 and two observed
templates the store reports `n = 2` while `num_added` reports 1, so the
linear budget with factor 1 and minimum 0 comes out 1 instead of 2. -/
theorem C9_budget_uses_sample_size :
    (∀ (fr : ℚ) (f : Nat → ℚ) (mn : Nat), apply_function fr f mn 0 = 0)
    ∧ RSEList.size ((RSEList.store_add ((RSEList.store_add (RSEList.mk0 Nat 1) 0 7).1) (1/2) 8).1) = 2
    ∧ num_added ((RSEList.store_add ((RSEList.store_add (RSEList.mk0 Nat 1) 0 7).1) (1/2) 8).1).list = 1
    ∧ apply_function 1 (fun n => (n : ℚ)) 0
        (num_added ((RSEList.store_add ((RSEList.store_add (RSEList.mk0 Nat 1) 0 7).1) (1/2) 8).1).list) = 1
    ∧ apply_function 1 (fun n => (n : ℚ)) 0
        (RSEList.size ((RSEList.store_add ((RSEList.store_add (RSEList.mk0 Nat 1) 0 7).1) (1/2) 8).1)) = 2 := by
  refine ⟨fun fr f mn => by simp [apply_function], ?_, ?_, ?_, ?_⟩ <;>
    · norm_num [RSEList.store_add, RSEList.add_part1, RSEList.mk0, RSEList.size,
        num_added, ratFloorNat, apply_function] <;> rfl

/-- Skip loop of `rpos`, described with list combinators: it passes over the
leading run of `S` characters and one further character. -/
theorem rposSkip_eq_drop (xs : List Char) :
    rposSkip xs = xs.drop ((xs.takeWhile (fun c => c = 'S')).length + 1) := by
  induction xs with
  | nil => simp [rposSkip]
  | cons c rest ih =>
    by_cases hc : c = 'S'
    · simpa [rposSkip, hc, List.takeWhile_cons] using ih
    · simp [rposSkip, hc, List.takeWhile_cons]

/-- C7 (amended).  `lpos()` is `pos - left_clip`; `fragment_length` is the
downstream mate's `rpos` minus the upstream mate's `lpos` plus one, computed
from `pos`, clip and transcript only (the parser discards `TLEN`); but
`rpos()` is `pos + m - 1` where `m` counts the `=`, `X`, `D`, `S` characters
strictly after the leading `S` run and the one character following it - not
over the whole transcript. -/
theorem C7_geometry :
    (∀ (pos : Nat) (xs : List Char),
        rpos pos xs =
          pos + (xs.drop ((xs.takeWhile (fun c => c = 'S')).length + 1)).countP isRefChar
            - 1)
    ∧ (∀ pos lc : Nat, lc ≤ pos → pos < 2 ^ 64 → lpos pos lc = pos - lc)
    ∧ (∀ al1 al2 : AlnGeom, al1.pos < al2.pos →
        fragment_length al1 al2 =
          rpos al2.pos al2.xscript - lpos al1.pos (cigar_left_clip al1.cigar) + 1) := by
  refine ⟨?_, ?_, ?_⟩
  · intro pos xs
    rw [rpos, rposSkip_eq_drop]
  · intro pos lc h1 h2
    simp only [lpos, sub64]
    omega
  · intro al1 al2 h
    simp [fragment_length, h]

/-- C7 witness: the amended geometry at concrete inputs. -/
theorem C7_witness :
    rpos 10 ['S', '=', '='] =
      10 + ((['S', '=', '='].drop
        ((['S', '=', '='].takeWhile (fun c => c = 'S')).length + 1)).countP isRefChar) - 1
    ∧ lpos 7 2 = 7 - 2
    ∧ fragment_length ⟨5, [('M', 3)], ['=', '=', '=']⟩ ⟨8, [], ['=', '=']⟩ =
        rpos 8 ['=', '='] - lpos 5 (cigar_left_clip [('M', 3)]) + 1 :=
  ⟨C7_geometry.1 10 ['S', '=', '='],
   C7_geometry.2.1 7 2 (by decide) (by norm_num),
   C7_geometry.2.2 ⟨5, [('M', 3)], ['=', '=', '=']⟩ ⟨8, [], ['=', '=']⟩ (by decide)⟩

/-- C7 counterexample: for transcript `==` at `pos = 10` the code's `rpos`
returns 10, while the claimed formula `pos` plus the count of `=`, `X`, `D`,
`S` characters of the whole transcript minus one gives 11. -/
theorem C7_counterexample :
    rpos 10 ['=', '='] = 10 ∧ 10 + List.countP isRefChar ['=', '='] - 1 = 11 ∧
      (10 : Nat) ≠ 11 := by
  decide

/-- C5 (amended).  Two successive non-secondary records are linked exactly
when both carry a mate flag (bit 0x40 or 0x80): the first is stored, the
second closes the pair, with mate-1/mate-2 roles taken from the second
record's 0x40 bit.  The query names play no part in the decision. -/
theorem C5_linking_condition (l1 l2 : List Char)
    (h1 : ¬isHeaderLine l1) (h2 : ¬isHeaderLine l2)
    (s1 : samFlag l1 &&& 2048 = 0) (s2 : samFlag l2 &&& 2048 = 0) :
    scanPairs [l1, l2] =
      if mate_flag (samFlag l1) ≠ '0' ∧ mate_flag (samFlag l2) ≠ '0' then
        [if mate_flag (samFlag l2) = '1' then
           ((samQname l2, samFlag l2), (samQname l1, samFlag l1))
         else ((samQname l1, samFlag l1), (samQname l2, samFlag l2))]
      else [] := by
  by_cases m1 : mate_flag (samFlag l1) = '0' <;>
    by_cases m2 : mate_flag (samFlag l2) = '0' <;>
      by_cases r2 : mate_flag (samFlag l2) = '1' <;>
        simp_all [scanPairs, scanPairsLoop]

/-- C5 witness: two successive paired records with different names and
complementary mate bits are linked. -/
theorem C5_witness :
    scanPairs [['x', '\t', '6', '5'], ['y', '\t', '1', '2', '9']] =
      if mate_flag (samFlag ['x', '\t', '6', '5']) ≠ '0' ∧
         mate_flag (samFlag ['y', '\t', '1', '2', '9']) ≠ '0' then
        [if mate_flag (samFlag ['y', '\t', '1', '2', '9']) = '1' then
           ((samQname ['y', '\t', '1', '2', '9'], samFlag ['y', '\t', '1', '2', '9']),
            (samQname ['x', '\t', '6', '5'], samFlag ['x', '\t', '6', '5']))
         else
           ((samQname ['x', '\t', '6', '5'], samFlag ['x', '\t', '6', '5']),
            (samQname ['y', '\t', '1', '2', '9'], samFlag ['y', '\t', '1', '2', '9']))]
      else [] :=
  C5_linking_condition _ _ (by decide) (by decide) (by decide) (by decide)

/-- C5 counterexample: the records `x` (flag 65: paired, mate 1) and `y`
(flag 129: paired, mate 2) have different query names, yet `sam_pass1` links
them into a pair - the claimed qname-sharing condition is not required. -/
theorem C5_counterexample :
    scanPairs [['x', '\t', '6', '5'], ['y', '\t', '1', '2', '9']] =
      [((['x'], 65), (['y'], 129))] ∧
    samQname ['x', '\t', '6', '5'] ≠ samQname ['y', '\t', '1', '2', '9'] := by
  decide

/-- C1 counterexample: after one header line, the first record of the file
receives line ordinal 2 from `sam_pass1`, not 1 - header lines do count
toward the ordinal. -/
theorem C1_counterexample :
    scanOrdinals 0 [['@', 'h'], ['r', '\t', '0']] = [(['r', '\t', '0'], 2)] ∧
      (2 : Nat) ≠ 1 := by
  decide

/-- Output of the rewriter loop has one line per input line. -/
theorem rewriteLoop_length (lines : List (List Char)) :
    ∀ (preds : List (Nat × ℚ)) (n : Nat),
      (rewriteLoop preds n lines).length = lines.length := by
  induction lines with
  | nil => intro preds n; rfl
  | cons l rest ih =>
    intro preds n
    by_cases h : isHeaderLine l
    · simp [rewriteLoop, h, ih]
    · cases preds with
      | nil => simp [rewriteLoop, h, ih]
      | cons p ps =>
        by_cases hl : p.1 > n + 1 <;> simp [rewriteLoop, h, hl, ih]

/-- Header lines are copied through by the rewriter loop at their own
positions. -/
theorem rewriteLoop_header (lines : List (List Char)) :
    ∀ (preds : List (Nat × ℚ)) (n i : Nat), i < lines.length →
      isHeaderLine (lines.getD i []) →
      (rewriteLoop preds n lines).getD i (.pass []) = .pass (lines.getD i []) := by
  induction lines with
  | nil => intro preds n i h; simp at h
  | cons l rest ih =>
    intro preds n i hlen hhdr
    cases i with
    | zero =>
      simp only [List.getD_cons_zero] at hhdr
      simp [rewriteLoop, hhdr]
    | succ j =>
      simp only [List.getD_cons_succ] at hhdr ⊢
      have hj : j < rest.length := by simpa [Nat.succ_lt_succ_iff] using hlen
      by_cases h : isHeaderLine l
      · simpa [rewriteLoop, h] using ih preds (n + 1) j hj hhdr
      · cases preds with
        | nil => simpa [rewriteLoop, h] using ih [] (n + 1) j hj hhdr
        | cons p ps =>
          by_cases hl : p.1 > n + 1
          · simpa [rewriteLoop, h, hl] using ih (p :: ps) (n + 1) j hj hhdr
          · simpa [rewriteLoop, h, hl] using ih ps (n + 1) j hj hhdr

/-- Ordinal assignment of `sam_pass1` in closed form: a processed record's
`line` value is one more than its zero-based position among all lines of the
file, headers and secondary records included. -/
theorem scanOrdinals_spec (lines : List (List Char)) :
    ∀ n : Nat,
      scanOrdinals n lines =
        (List.enumFrom n lines).filterMap
          (fun p => if ¬isHeaderLine p.2 ∧ samFlag p.2 &&& 2048 = 0
                    then some (p.2, p.1 + 1) else none) := by
  induction lines with
  | nil => intro n; rfl
  | cons l rest ih =>
    intro n
    by_cases h : isHeaderLine l
    · simp [scanOrdinals, h, List.enumFrom, ih]
    · by_cases hs : samFlag l &&& 2048 = 0
      · simp [scanOrdinals, h, hs, List.enumFrom, ih]
      · simp [scanOrdinals, h, hs, List.enumFrom, ih]

/-- Heads of an ascending prediction chain precede every later entry. -/
theorem chain'_lt_of_mem {p0 : Nat × ℚ} {ps : List (Nat × ℚ)}
    (h : List.Chain' (fun a b => a.1 < b.1) (p0 :: ps)) :
    ∀ q ∈ ps, p0.1 < q.1 := by
  haveI : IsTrans (Nat × ℚ) (fun a b => a.1 < b.1) := ⟨fun a b c => Nat.lt_trans⟩
  have hpw := List.chain'_iff_pairwise.mp h
  exact fun q hq => (List.pairwise_cons.mp hpw).1 q hq

/-- Rewriter loop applied to well-formed predictions: the prediction whose
line is `L` rewrites the `L - n`-th line of the remaining input (1-based,
headers included). -/
theorem rewriteLoop_hits (lines : List (List Char)) :
    ∀ (preds : List (Nat × ℚ)) (n : Nat),
      List.Chain' (fun a b => a.1 < b.1) preds →
      (∀ p ∈ preds, n < p.1 ∧ p.1 - n ≤ lines.length ∧
        ¬isHeaderLine (lines.getD (p.1 - n - 1) [])) →
      ∀ p ∈ preds, (rewriteLoop preds n lines).getD (p.1 - n - 1) (.pass []) =
        .rewritten (lines.getD (p.1 - n - 1) []) p.2 := by
  induction lines with
  | nil =>
    intro preds n _ hp p hmem
    have := hp p hmem
    simp only [List.length_nil] at this
    omega
  | cons l rest ih =>
    intro preds n hasc hp p hmem
    by_cases h : isHeaderLine l
    · have hpp := hp p hmem
      have hne : p.1 - n - 1 ≠ 0 := fun h0 => hpp.2.2 (by simpa [h0] using h)
      have hidx : p.1 - n - 1 = (p.1 - (n + 1) - 1) + 1 := by omega
      have hstep : ∀ q ∈ preds, n + 1 < q.1 ∧ q.1 - (n + 1) ≤ rest.length ∧
          ¬isHeaderLine (rest.getD (q.1 - (n + 1) - 1) []) := by
        intro q hq
        obtain ⟨hq1, hq2, hq3⟩ := hp q hq
        have hqne : q.1 - n - 1 ≠ 0 := fun h0 => hq3 (by simpa [h0] using h)
        have hq2' : q.1 - n ≤ rest.length + 1 := by simpa using hq2
        have hqidx : q.1 - n - 1 = (q.1 - (n + 1) - 1) + 1 := by omega
        exact ⟨by omega, by omega, by simpa [hqidx] using hq3⟩
      have hres := ih preds (n + 1) hasc hstep p hmem
      have hrw : rewriteLoop preds n (l :: rest) =
          .pass l :: rewriteLoop preds (n + 1) rest := by
        simp [rewriteLoop, h]
      rw [hrw, hidx, List.getD_cons_succ, List.getD_cons_succ]
      exact hres
    · cases preds with
      | nil => cases hmem
      | cons p0 ps =>
        have hle : ∀ q ∈ p0 :: ps, p0.1 ≤ q.1 := by
          intro q hq
          rcases List.mem_cons.mp hq with rfl | hq'
          · exact Nat.le_refl _
          · exact Nat.le_of_lt (chain'_lt_of_mem hasc q hq')
        by_cases hl : p0.1 > n + 1
        · have hrw : rewriteLoop (p0 :: ps) n (l :: rest) =
              .pass l :: rewriteLoop (p0 :: ps) (n + 1) rest := by
            simp [rewriteLoop, h, hl]
          have hstep : ∀ q ∈ p0 :: ps, n + 1 < q.1 ∧ q.1 - (n + 1) ≤ rest.length ∧
              ¬isHeaderLine (rest.getD (q.1 - (n + 1) - 1) []) := by
            intro q hq
            obtain ⟨hq1, hq2, hq3⟩ := hp q hq
            have hq0 : n + 1 < q.1 := Nat.lt_of_lt_of_le hl (hle q hq)
            have hq2' : q.1 - n ≤ rest.length + 1 := by simpa using hq2
            have hqidx : q.1 - n - 1 = (q.1 - (n + 1) - 1) + 1 := by omega
            exact ⟨hq0, by omega, by simpa [hqidx] using hq3⟩
          have hres := ih (p0 :: ps) (n + 1) hasc hstep p hmem
          have hpp := hstep p hmem
          have hidx : p.1 - n - 1 = (p.1 - (n + 1) - 1) + 1 := by omega
          rw [hrw, hidx, List.getD_cons_succ, List.getD_cons_succ]
          exact hres
        · have hp0 : p0.1 = n + 1 := by
            have := (hp p0 (List.mem_cons_self _ _)).1
            omega
          have hrw : rewriteLoop (p0 :: ps) n (l :: rest) =
              .rewritten l p0.2 :: rewriteLoop ps (n + 1) rest := by
            simp [rewriteLoop, h, hl]
          rcases List.mem_cons.mp hmem with rfl | hmem'
          · have hidx : p.1 - n - 1 = 0 := by omega
            rw [hrw, hidx]
            simp
          · have hgt : n + 1 < p.1 := hp0 ▸ chain'_lt_of_mem hasc p hmem'
            have hstep : ∀ q ∈ ps, n + 1 < q.1 ∧ q.1 - (n + 1) ≤ rest.length ∧
                ¬isHeaderLine (rest.getD (q.1 - (n + 1) - 1) []) := by
              intro q hq
              obtain ⟨hq1, hq2, hq3⟩ := hp q (List.mem_cons_of_mem _ hq)
              have hq0 : n + 1 < q.1 := hp0 ▸ chain'_lt_of_mem hasc q hq
              have hq2' : q.1 - n ≤ rest.length + 1 := by simpa using hq2
              have hqidx : q.1 - n - 1 = (q.1 - (n + 1) - 1) + 1 := by omega
              exact ⟨hq0, by omega, by simpa [hqidx] using hq3⟩
            have hres := ih ps (n + 1) hasc.tail hstep p hmem'
            have hidx : p.1 - n - 1 = (p.1 - (n + 1) - 1) + 1 := by omega
            rw [hrw, hidx, List.getD_cons_succ, List.getD_cons_succ]
            exact hres

/-- C1 (amended).  Header lines are copied through unchanged by the rewriter
(and skipped by the scanner), but they do count toward the line ordinal: a
processed record's `line` value is its 1-based index among all lines of the
file, headers and secondary records included, and the rewriter applies the
prediction with line `L` to the `L`-th line of the file counted the same
way. -/
theorem C1_ordinals_count_headers :
    (∀ (lines : List (List Char)) (preds : List (Nat × ℚ)) (i : Nat),
        i < lines.length → isHeaderLine (lines.getD i []) →
        (qtip_rewrite lines preds).getD i (.pass []) = .pass (lines.getD i []))
    ∧ (∀ lines : List (List Char),
        scanOrdinals 0 lines =
          lines.enum.filterMap
            (fun p => if ¬isHeaderLine p.2 ∧ samFlag p.2 &&& 2048 = 0
                      then some (p.2, p.1 + 1) else none))
    ∧ (∀ (lines : List (List Char)) (preds : List (Nat × ℚ)),
        List.Chain' (fun a b => a.1 < b.1) preds →
        (∀ p ∈ preds, 0 < p.1 ∧ p.1 ≤ lines.length ∧
          ¬isHeaderLine (lines.getD (p.1 - 1) [])) →
        ∀ p ∈ preds, (qtip_rewrite lines preds).getD (p.1 - 1) (.pass []) =
          .rewritten (lines.getD (p.1 - 1) []) p.2) := by
  refine ⟨?_, ?_, ?_⟩
  · intro lines preds i hi hh
    exact rewriteLoop_header lines preds 0 i hi hh
  · intro lines
    simpa [List.enum] using scanOrdinals_spec lines 0
  · intro lines preds hasc hp p hmem
    have hp' : ∀ q ∈ preds, 0 < q.1 ∧ q.1 - 0 ≤ lines.length ∧
        ¬isHeaderLine (lines.getD (q.1 - 0 - 1) []) := by
      intro q hq
      obtain ⟨h1, h2, h3⟩ := hp q hq
      exact ⟨h1, by omega, by simpa using h3⟩
    have := rewriteLoop_hits lines preds 0 hasc hp' p hmem
    simpa [qtip_rewrite] using this

/-- C1 witness: on a file of one header and one record, the record receives
ordinal 2, the header passes through the rewriter unchanged, and the
prediction with line 2 rewrites the record. -/
theorem C1_witness :
    (qtip_rewrite [['@', 'h'], ['r', '\t', '0']] [(2, (5 : ℚ))]).getD 0 (.pass []) =
      .pass ['@', 'h']
    ∧ (qtip_rewrite [['@', 'h'], ['r', '\t', '0']] [(2, (5 : ℚ))]).getD 1 (.pass []) =
      .rewritten ['r', '\t', '0'] 5 := by
  constructor
  · exact C1_ordinals_count_headers.1 [['@', 'h'], ['r', '\t', '0']] [(2, (5 : ℚ))] 0
      (by decide) (by decide)
  · have hq : ∀ q ∈ [((2 : Nat), (5 : ℚ))], 0 < q.1 ∧
        q.1 ≤ [['@', 'h'], ['r', '\t', '0']].length ∧
        ¬isHeaderLine ([['@', 'h'], ['r', '\t', '0']].getD (q.1 - 1) []) := by
      intro q hmq
      simp only [List.mem_singleton] at hmq
      subst hmq
      exact ⟨by norm_num, by norm_num, by decide⟩
    have := C1_ordinals_count_headers.2.2 [['@', 'h'], ['r', '\t', '0']]
      [(2, (5 : ℚ))] (by simp) hq (2, (5 : ℚ)) (List.mem_singleton.mpr rfl)
    simpa using this

/-- Chain step for a window opening a new reference: its `refoff` is 0. -/
theorem chainOK_cons_newref (chunksz olap : Nat) (prev : Option FaWindow)
    (refidx : Nat) (cont : List Char) (ws : List FaWindow)
    (hprev : ∀ p, prev = some p → p.refidx < refidx)
    (hws : chainOK chunksz olap (some ⟨refidx, 0, cont⟩) ws) :
    chainOK chunksz olap prev (⟨refidx, 0, cont⟩ :: ws) := by
  refine ⟨?_, hws⟩
  cases prev with
  | none => rfl
  | some p =>
    have : p.refidx < refidx := hprev p rfl
    simp only []
    rw [if_neg (by omega)]
    trivial

/-- Chain step for a window continuing the same reference from a full
predecessor: the overlap bytes carry over and `refoff` advances by
`chunksz - olap`. -/
theorem chainOK_cons_same (chunksz olap : Nat) (refidx R : Nat)
    (C carry written : List Char) (ws : List FaWindow)
    (hC : C.length = chunksz) (hcarry : carry = C.drop (chunksz - olap))
    (holap : olap ≤ chunksz)
    (hws : chainOK chunksz olap
      (some ⟨refidx, R + (chunksz - olap), carry ++ written⟩) ws) :
    chainOK chunksz olap (some ⟨refidx, R, C⟩)
      (⟨refidx, R + (chunksz - olap), carry ++ written⟩ :: ws) := by
  have hlen : carry.length = olap := by
    rw [hcarry, List.length_drop, hC]
    omega
  have htake : (carry ++ written).take olap = C.drop (chunksz - olap) := by
    have h1 : (carry ++ written).take olap = (carry ++ written).take carry.length := by
      rw [hlen]
    rw [h1, List.take_left]
    exact hcarry
  refine ⟨?_, hws⟩
  simp only [if_pos rfl]
  exact ⟨hC, htake, by trivial⟩

/-- Invariant proof for the FASTA reading loop: started in a fresh state or
just after a full window of the current reference, the loop emits a chain of
windows satisfying the overlap invariant. -/
theorem fa_invariant (chunksz olap : Nat) (hco : olap < chunksz) :
    ∀ N : Nat, ∀ input : List Char, input.length ≤ N →
      (∀ (carry written : List Char) (refoffT refidx : Nat) (prev : Option FaWindow),
        carry.length + written.length < chunksz →
        ((carry = [] ∧ refoffT = written.length ∧
            (∀ p, prev = some p → p.refidx < refidx)) ∨
         (∃ R C, prev = some ⟨refidx, R, C⟩ ∧ C.length = chunksz ∧
            carry = C.drop (chunksz - olap) ∧ refoffT = R + chunksz + written.length)) →
        chainOK chunksz olap prev (faLoop chunksz olap input carry written refoffT refidx))
      ∧ (∀ (refidx : Nat) (prev : Option FaWindow),
          (∀ p, prev = some p → p.refidx < refidx) →
          chainOK chunksz olap prev (faDefline chunksz olap input refidx)) := by
  have emitEnd : ∀ (carry written : List Char) (refoffT refidx : Nat)
      (prev : Option FaWindow),
      carry.length + written.length < chunksz →
      ((carry = [] ∧ refoffT = written.length ∧
          (∀ p, prev = some p → p.refidx < refidx)) ∨
       (∃ R C, prev = some ⟨refidx, R, C⟩ ∧ C.length = chunksz ∧
          carry = C.drop (chunksz - olap) ∧ refoffT = R + chunksz + written.length)) →
      chainOK chunksz olap prev
        [⟨refidx, refoffT - (carry.length + written.length), carry ++ written⟩] := by
    intro carry written refoffT refidx prev hsum hinv
    rcases hinv with ⟨hc, hr, hlt⟩ | ⟨R, C, hprev, hC, hcarry, hr⟩
    · subst hc hr
      have h0 : written.length - (0 + written.length) = 0 := by omega
      simpa [h0] using
        chainOK_cons_newref chunksz olap prev refidx written [] hlt trivial
    · subst hprev hr
      have hlen : carry.length = olap := by
        rw [hcarry, List.length_drop, hC]
        omega
      have h0 : R + chunksz + written.length - (carry.length + written.length) =
          R + (chunksz - olap) := by omega
      rw [h0]
      exact chainOK_cons_same chunksz olap refidx R C carry written []
        hC hcarry (Nat.le_of_lt hco) trivial
  intro N
  induction N with
  | zero =>
    intro input hlen
    have hnil : input = [] := List.length_eq_zero.mp (Nat.le_zero.mp hlen)
    subst hnil
    constructor
    · intro carry written refoffT refidx prev hsum hinv
      by_cases hw : written.isEmpty
      · simp [faLoop, hw, chainOK]
      · simpa [faLoop, hw] using emitEnd carry written refoffT refidx prev hsum hinv
    · intro refidx prev _
      simp [faDefline, chainOK]
  | succ N ih =>
    intro input hlen
    cases input with
    | nil =>
      constructor
      · intro carry written refoffT refidx prev hsum hinv
        by_cases hw : written.isEmpty
        · simp [faLoop, hw, chainOK]
        · simpa [faLoop, hw] using emitEnd carry written refoffT refidx prev hsum hinv
      · intro refidx prev _
        simp [faDefline, chainOK]
    | cons c rest =>
      have hrest : rest.length ≤ N := by
        simp only [List.length_cons] at hlen
        omega
      obtain ⟨ihLoop, ihDef⟩ := ih rest hrest
      constructor
      · intro carry written refoffT refidx prev hsum hinv
        by_cases hgt : c = '>'
        · subst hgt
          have hnext : ∀ p, some (⟨refidx, refoffT - (carry.length + written.length),
              carry ++ written⟩ : FaWindow) = some p → p.refidx < refidx + 1 := by
            intro p hp
            injection hp with hp
            subst hp
            exact Nat.lt_succ_self _
          by_cases hw : written.isEmpty
          · simp only [faLoop, if_pos rfl, hw, if_pos rfl]
            apply ihDef (refidx + 1) prev
            intro p hp
            rcases hinv with ⟨_, _, hlt⟩ | ⟨R, C, hprev, _, _, _⟩
            · exact Nat.lt_succ_of_lt (hlt p hp)
            · rw [hprev] at hp
              injection hp with hp
              subst hp
              exact Nat.lt_succ_self _
          · have hdef := ihDef (refidx + 1)
              (some ⟨refidx, refoffT - (carry.length + written.length), carry ++ written⟩)
              hnext
            have hhead := emitEnd carry written refoffT refidx prev hsum hinv
            simp only [faLoop, if_pos rfl, hw, if_neg] at hdef hhead ⊢
            simp only [Bool.false_eq_true, if_false]
            exact ⟨hhead.1, hdef⟩
        · by_cases hsp : isspaceC c
          · simpa [faLoop, hgt, hsp] using
              ihLoop carry written refoffT refidx prev hsum hinv
          · by_cases hfull : carry.length + (written ++ [dna_upper c]).length = chunksz
            · have hcl : carry.length + (written.length + 1) = chunksz := by
                simpa using hfull
              have hclen : (carry ++ (written ++ [dna_upper c])).length = chunksz := by
                simp only [List.length_append, List.length_cons, List.length_nil]
                omega
              have hole : olap ≤ (carry ++ (written ++ [dna_upper c])).length := by
                rw [hclen]
                exact Nat.le_of_lt hco
              have hco2 : olap ≤ chunksz := Nat.le_of_lt hco
              have hrw : faLoop chunksz olap (c :: rest) carry written refoffT refidx =
                  ⟨refidx, refoffT + 1 - chunksz, carry ++ (written ++ [dna_upper c])⟩ ::
                    faLoop chunksz olap rest
                      ((carry ++ (written ++ [dna_upper c])).drop (chunksz - olap))
                      [] (refoffT + 1) refidx := by
                simp only [faLoop, if_neg hgt, if_neg hsp, if_pos hfull, if_pos hole,
                  hclen, if_pos hco2]
              rw [hrw]
              rcases hinv with ⟨hc, hr, hlt⟩ | ⟨R, C, hprev, hC, hcarry, hr⟩
              · -- fresh reference: this is the first, full window at refoff 0
                subst hc hr
                simp only [List.nil_append] at hrw hclen ⊢
                have hcl0 : written.length + 1 = chunksz := by simpa using hcl
                have hrf : written.length + 1 - chunksz = 0 := by omega
                rw [hrf]
                refine chainOK_cons_newref chunksz olap prev refidx _ _ hlt ?_
                refine ihLoop _ [] (written.length + 1) refidx _ ?_ ?_
                · rw [List.length_drop, hclen]
                  simp only [List.length_nil, Nat.add_zero]
                  omega
                · refine Or.inr ⟨0, written ++ [dna_upper c], rfl, hclen, rfl, ?_⟩
                  simp only [List.length_nil]
                  omega
              · -- continuing the current reference
                have hlen2 : carry.length = olap := by
                  rw [hcarry, List.length_drop, hC]
                  omega
                have hrf : refoffT + 1 - chunksz = R + (chunksz - olap) := by omega
                rw [hrf, hprev]
                refine chainOK_cons_same chunksz olap refidx R C carry
                  (written ++ [dna_upper c]) _ hC hcarry hco2 ?_
                rw [← hrf]
                refine ihLoop _ [] (refoffT + 1) refidx _ ?_ ?_
                · rw [List.length_drop, hclen]
                  simp only [List.length_nil, Nat.add_zero]
                  omega
                · refine Or.inr ⟨refoffT + 1 - chunksz, carry ++ (written ++ [dna_upper c]),
                    rfl, hclen, rfl, ?_⟩
                  simp only [List.length_nil]
                  omega
            · have hsum' : carry.length + (written ++ [dna_upper c]).length < chunksz := by
                have := hsum
                simp only [List.length_append, List.length_cons, List.length_nil] at hfull ⊢
                omega
              have hinv' : (carry = [] ∧ refoffT + 1 = (written ++ [dna_upper c]).length ∧
                  (∀ p, prev = some p → p.refidx < refidx)) ∨
                  (∃ R C, prev = some ⟨refidx, R, C⟩ ∧ C.length = chunksz ∧
                    carry = C.drop (chunksz - olap) ∧
                    refoffT + 1 = R + chunksz + (written ++ [dna_upper c]).length) := by
                rcases hinv with ⟨hc, hr, hlt⟩ | ⟨R, C, hprev, hC, hcarry, hr⟩
                · exact Or.inl ⟨hc, by simp [hr], hlt⟩
                · exact Or.inr ⟨R, C, hprev, hC, hcarry, by simp [hr]; omega⟩
              have hfull2 : ¬(carry.length + (written.length + 1) = chunksz) := by
                simpa using hfull
              simpa [faLoop, hgt, hsp, hfull2] using
                ihLoop carry (written ++ [dna_upper c]) (refoffT + 1) refidx prev
                  hsum' hinv'
      · intro refidx prev hprev
        by_cases hnl : c = '\n' ∨ c = '\r'
        · simp only [faDefline, if_pos hnl]
          refine ihLoop [] [] 0 refidx prev ?_ (Or.inl ⟨rfl, rfl, hprev⟩)
          simp only [List.length_nil]
          omega
        · simp only [faDefline, if_neg hnl]
          exact ihDef refidx prev hprev

/-- Consecutive-window facts extracted from the chained invariant. -/
theorem chainOK_pairwise (chunksz olap : Nat) :
    ∀ (ws : List FaWindow) (prev : Option FaWindow),
      chainOK chunksz olap prev ws →
      ∀ (i : Nat) (w w' : FaWindow), ws[i]? = some w → ws[i + 1]? = some w' →
        (w'.refidx = w.refidx →
          w.content.length = chunksz ∧
          w'.content.take olap = w.content.drop (chunksz - olap) ∧
          w'.refoff = w.refoff + (chunksz - olap))
        ∧ (w'.refidx ≠ w.refidx → w'.refoff = 0) := by
  intro ws
  induction ws with
  | nil =>
    intro prev _ i w w' hw
    simp at hw
  | cons w0 tail ih =>
    intro prev hch i w w' hw hw'
    obtain ⟨_, htail⟩ := hch
    cases i with
    | zero =>
      simp only [List.getElem?_cons_zero, Option.some.injEq] at hw
      subst hw
      simp only [List.getElem?_cons_succ] at hw'
      cases tail with
      | nil => simp at hw'
      | cons t0 ttail =>
        simp only [List.getElem?_cons_zero, Option.some.injEq] at hw'
        subst hw'
        obtain ⟨hhead, _⟩ := htail
        constructor
        · intro hsame
          simpa [if_pos hsame] using hhead
        · intro hdiff
          simpa [if_neg hdiff] using hhead
    | succ j =>
      simp only [List.getElem?_cons_succ] at hw hw'
      exact ih (some w0) htail j w w' hw hw'

/-- C8.  Any two consecutive windows the chunkwise FASTA reader yields from
the same reference overlap in exactly the last/first `olap` bytes, with the
earlier window full and `refoff` advancing by exactly `chunksz - olap`; a
window opening a new reference starts at `refoff` 0 with a fresh buffer. -/
theorem C8_fasta_window_overlap (chunksz olap : Nat) (hco : olap < chunksz)
    (input : List Char) (i : Nat) (w w' : FaWindow)
    (hw : (fastaWindows chunksz olap input)[i]? = some w)
    (hw' : (fastaWindows chunksz olap input)[i + 1]? = some w') :
    (w'.refidx = w.refidx →
      w.content.length = chunksz ∧
      w'.content.take olap = w.content.drop (chunksz - olap) ∧
      w'.refoff = w.refoff + (chunksz - olap))
    ∧ (w'.refidx ≠ w.refidx → w'.refoff = 0) := by
  have hch : chainOK chunksz olap none (fastaWindows chunksz olap input) := by
    refine (fa_invariant chunksz olap hco input.length input (Nat.le_refl _)).1
      [] [] 0 0 none ?_ (Or.inl ⟨rfl, rfl, fun p hp => Option.noConfusion hp⟩)
    simp only [List.length_nil]
    omega
  exact chainOK_pairwise chunksz olap _ none hch i w w' hw hw'

/-- C8 witness: with chunk size 2 and overlap 1 on a four-base reference,
windows 0 and 1 share one byte and `refoff` advances by one. -/
theorem C8_witness :
    (⟨1, 0, ['A', 'A']⟩ : FaWindow).content.length = 2 ∧
    (⟨1, 1, ['A', 'A']⟩ : FaWindow).content.take 1 =
      (⟨1, 0, ['A', 'A']⟩ : FaWindow).content.drop (2 - 1) ∧
    (⟨1, 1, ['A', 'A']⟩ : FaWindow).refoff =
      (⟨1, 0, ['A', 'A']⟩ : FaWindow).refoff + (2 - 1) := by
  have hwin : fastaWindows 2 1 ('>' :: 'r' :: '\n' :: 'A' :: 'A' :: 'A' :: 'A' :: '\n' :: []) =
      [⟨1, 0, ['A', 'A']⟩, ⟨1, 1, ['A', 'A']⟩, ⟨1, 2, ['A', 'A']⟩] := by
    simp [fastaWindows, faLoop, faDefline, isspaceC, dna_upper]
  exact (C8_fasta_window_overlap 2 1 (by omega)
    ('>' :: 'r' :: '\n' :: 'A' :: 'A' :: 'A' :: 'A' :: '\n' :: []) 0
    ⟨1, 0, ['A', 'A']⟩ ⟨1, 1, ['A', 'A']⟩
    (by rw [hwin]; rfl) (by rw [hwin]; rfl)).1 rfl

/-- Digit characters satisfy the digit class. -/
theorem isdigitC_of_lt (d : Nat) (hd : d < 10) :
    isdigitC (Char.ofNat (48 + d)) = true := by
  interval_cases d <;> decide

/-- Every character printed by `decCharsAux` is a digit. -/
theorem decCharsAux_digits :
    ∀ (fuel n : Nat), ∀ c ∈ decCharsAux fuel n, isdigitC c = true := by
  intro fuel
  induction fuel with
  | zero => intro n c hc; simp [decCharsAux] at hc
  | succ f ih =>
    intro n c hc
    by_cases hn : n = 0
    · simp [decCharsAux, hn] at hc
    · simp only [decCharsAux, if_neg hn, List.mem_append, List.mem_singleton] at hc
      rcases hc with hc | hc
      · exact ih (n / 10) c hc
      · subst hc
        exact isdigitC_of_lt (n % 10) (Nat.mod_lt _ (by omega))

/-- Every character printed by `decChars` is a digit. -/
theorem decChars_digits (n : Nat) : ∀ c ∈ decChars n, isdigitC c = true := by
  intro c hc
  by_cases hn : n = 0
  · simp [decChars, hn] at hc
    subst hc
    decide
  · simp only [decChars, if_neg hn] at hc
    exact decCharsAux_digits (n + 1) n c hc

/-- A nonzero amount of fuel prints a nonzero number as a nonempty digit
string. -/
theorem decChars_ne_nil (n : Nat) : decChars n ≠ [] := by
  by_cases hn : n = 0
  · simp [decChars, hn]
  · simp [decChars, decCharsAux, hn]

/-- The decimal scanner consumes an all-digit block and folds its value onto
the accumulator. -/
theorem parseDigitsFrom_append (ds : List Char) :
    ∀ (acc : Nat) (rest : List Char), (∀ c ∈ ds, isdigitC c = true) →
      parseDigitsFrom acc (ds ++ rest) =
        parseDigitsFrom (ds.foldl (fun a c => a * 10 + (c.toNat - 48)) acc) rest := by
  induction ds with
  | nil => intro acc rest _; rfl
  | cons c cs ih =>
    intro acc rest hds
    have hc : isdigitC c = true := hds c (List.mem_cons_self _ _)
    simp only [List.cons_append, parseDigitsFrom, if_pos hc, List.foldl_cons]
    exact ih _ rest (fun x hx => hds x (List.mem_cons_of_mem _ hx))

/-- The decimal scanner stops at a non-digit (or at the end). -/
theorem parseDigitsFrom_stop (acc : Nat) (rest : List Char)
    (h : ∀ c, rest.head? = some c → isdigitC c = false) :
    parseDigitsFrom acc rest = (acc, rest) := by
  cases rest with
  | nil => rfl
  | cons c cs =>
    have := h c rfl
    simp [parseDigitsFrom, this]

/-- Scanning the digits printed by `decCharsAux` recovers the number (with
the accumulator shifted by the digit count). -/
theorem decCharsAux_foldl :
    ∀ (fuel n : Nat), n ≤ fuel → ∀ acc : Nat,
      (decCharsAux fuel n).foldl (fun a c => a * 10 + (c.toNat - 48)) acc =
        acc * 10 ^ (decCharsAux fuel n).length + n := by
  intro fuel
  induction fuel with
  | zero =>
    intro n hn acc
    have : n = 0 := Nat.le_zero.mp hn
    simp [decCharsAux, this]
  | succ f ih =>
    intro n hn acc
    by_cases hn0 : n = 0
    · simp [decCharsAux, hn0]
    · have hdiv : n / 10 ≤ f := by
        have : n / 10 < n := Nat.div_lt_self (by omega) (by omega)
        omega
      have hm : n % 10 < 10 := Nat.mod_lt _ (by omega)
      have hchar : (Char.ofNat (48 + n % 10)).toNat - 48 = n % 10 := by
        have h1 : (Char.ofNat (48 + n % 10)).toNat = 48 + n % 10 := by
          have hd := hm
          interval_cases h : (n % 10) <;> decide
        omega
      simp only [decCharsAux, if_neg hn0, List.foldl_append, List.foldl_cons,
        List.foldl_nil, List.length_append, List.length_cons, List.length_nil,
        ih (n / 10) hdiv acc, hchar]
      rw [pow_succ]
      have := Nat.div_add_mod n 10
      ring_nf
      omega

/-- Scanning the decimal print of `n` recovers `n` and stops at the
following non-digit. -/
theorem parse_decChars (n : Nat) (rest : List Char)
    (h : ∀ c, rest.head? = some c → isdigitC c = false) :
    parseDigitsFrom 0 (decChars n ++ rest) = (n, rest) := by
  rw [parseDigitsFrom_append (decChars n) 0 rest (decChars_digits n)]
  by_cases hn : n = 0
  · subst hn
    simp only [decChars, if_pos rfl, List.foldl_cons, List.foldl_nil]
    rw [parseDigitsFrom_stop _ _ h]
    norm_num
    decide
  · simp only [decChars, if_neg hn]
    rw [decCharsAux_foldl (n + 1) n (by omega) 0]
    simp only [Nat.zero_mul, Nat.zero_add]
    exact parseDigitsFrom_stop _ _ h

/-- The score-skipping step consumes exactly the printed signed score. -/
theorem skipScore_enc (z : Int) (rest : List Char)
    (h : ∀ c, rest.head? = some c → isdigitC c = false) :
    skipScore (decCharsInt z ++ rest) = rest := by
  by_cases hz : z < 0
  · simp only [decCharsInt, if_pos hz, List.cons_append, skipScore]
    rw [parse_decChars _ _ h]
  · simp only [decCharsInt, if_neg hz]
    obtain ⟨c, cs, hc⟩ : ∃ c cs, decChars z.natAbs = c :: cs := by
      cases hcc : decChars z.natAbs with
      | nil => exact absurd hcc (decChars_ne_nil _)
      | cons c cs => exact ⟨c, cs, rfl⟩
    have hcd : isdigitC c = true := decChars_digits _ c (by rw [hc]; exact List.mem_cons_self _ _)
    have hcne : c ≠ '-' := by
      intro hcm
      rw [hcm] at hcd
      exact absurd hcd (by decide)
    rw [hc, List.cons_append]
    have hrw : skipScore (c :: (cs ++ rest)) = (parseDigitsFrom 0 (c :: (cs ++ rest))).2 := by
      simp only [skipScore]
      split
      · rename_i r heq
        injection heq with h1 _
        exact absurd h1 hcne
      · rfl
    rw [hrw, ← List.cons_append, ← hc, parse_decChars _ _ h]

/-- Under 31-bit bounds, the C expression `abs((int)(a - b))` computes the
mathematical distance between `a` and `b`. -/
theorem cAbsDiff_small (a b : Nat) (ha : a < 2 ^ 31) (hb : b < 2 ^ 31) :
    cAbsDiff a b = |(a : Int) - b| := by
  have hs : sub64 a b = if b ≤ a then a - b else a + 2 ^ 64 - b := by
    simp only [sub64]
    split <;> omega
  have key : toInt32 (sub64 a b) = (a : Int) - b := by
    by_cases hab : b ≤ a
    · rw [hs, if_pos hab]
      simp only [toInt32]
      rw [if_pos (by omega)]
      omega
    · rw [hs, if_neg hab]
      simp only [toInt32]
      rw [if_neg (by omega)]
      omega
  rw [cAbsDiff, key, Int.abs_eq_natAbs]

/-- 64-bit subtraction without wrap-around. -/
theorem sub64_small (a b : Nat) (h : b ≤ a) (h2 : a < 2 ^ 64) :
    sub64 a b = a - b := by
  simp only [sub64]
  omega

/-- A list is a Boolean prefix of itself followed by anything. -/
theorem isPrefixOf_self_append (l t : List Char) : l.isPrefixOf (l ++ t) = true := by
  rw [List.isPrefixOf_iff_prefix]
  exact List.prefix_append l t

/-- Gate formed by the reference-name comparison and the following separator
check of `set_correctness`: when neither the encoded reference name nor the
record's `rname` contains the separator, the two checks pass together
exactly when the names are equal. -/
theorem refid_gate (refid : List Char) :
    ∀ (rname s : List Char), (':' : Char) ∉ refid → (':' : Char) ∉ rname →
      ((rname.isPrefixOf (refid ++ ':' :: s) = true ∧
        sim_sep.isPrefixOf ((refid ++ ':' :: s).drop rname.length) = true) ↔
       refid = rname) := by
  induction refid with
  | nil =>
    intro rname s _ hrr
    cases rname with
    | nil => simp [sim_sep, List.isPrefixOf]
    | cons r rs =>
      constructor
      · rintro ⟨hp, _⟩
        simp only [List.nil_append, List.isPrefixOf] at hp
        have : r = ':' := by
          have := Bool.and_eq_true_iff.mp hp
          simpa using this.1
        simp [this] at hrr
      · intro hh
        cases hh
  | cons a as ih =>
    intro rname s hrn hrr
    cases rname with
    | nil =>
      constructor
      · rintro ⟨_, hsep⟩
        simp only [List.length_nil, List.drop_zero, List.cons_append,
          sim_sep, List.isPrefixOf] at hsep
        have h1 : a = ':' := by
          have := Bool.and_eq_true_iff.mp hsep
          have h2 : ':' = a := by simpa using this.1
          exact h2.symm
        simp [h1] at hrn
      · intro hh
        cases hh
    | cons r rs =>
      have hrn' : (':' : Char) ∉ as := fun hmem => hrn (List.mem_cons_of_mem _ hmem)
      have hrr' : (':' : Char) ∉ rs := fun hmem => hrr (List.mem_cons_of_mem _ hmem)
      have hstep := ih rs s hrn' hrr'
      constructor
      · rintro ⟨hp, hsep⟩
        simp only [List.cons_append, List.isPrefixOf, Bool.and_eq_true_iff,
          beq_iff_eq] at hp
        obtain ⟨hra, hp'⟩ := hp
        simp only [List.length_cons, List.cons_append, List.drop_succ_cons] at hsep
        have := hstep.mp ⟨hp', hsep⟩
        rw [hra, this]
      · intro hh
        injection hh with h1 h2
        subst h1 h2
        refine ⟨?_, ?_⟩
        · simp only [List.cons_append, List.isPrefixOf, Bool.and_eq_true_iff,
            beq_iff_eq]
          exact ⟨by trivial, (hstep.mpr rfl).1⟩
        · simp only [List.length_cons, List.cons_append, List.drop_succ_cons]
          exact (hstep.mpr rfl).2

/-- Cursor position after the reference-name gate passes. -/
theorem refid_gate_drop (rname s : List Char) :
    ((rname ++ ':' :: s).drop rname.length).drop sim_sep.length = s := by
  rw [List.drop_left]
  rfl

/-- Strand characters written by the simulator: equal exactly when the
strands agree. -/
theorem fwChar_inj (a b : Bool) : fwChar a = fwChar b ↔ a = b := by
  cases a <;> cases b <;> simp [fwChar]

/-- The type-suffix test `qname_cur[0] == 'u' && ...` of `set_correctness`
never fires on the second tuple of a pair name, whose reference name is
nonempty and free of whitespace. -/
theorem uCheck_false (refid s : List Char) (h0 : refid ≠ [])
    (hs : ∀ c ∈ refid, isspaceC c = false) :
    ¬(headChar (refid ++ ':' :: s) = 'u' ∧
      ((refid ++ ':' :: s).drop 1 = [] ∨
        isspaceC (headChar ((refid ++ ':' :: s).drop 1)))) := by
  cases refid with
  | nil => exact absurd rfl h0
  | cons a as =>
    rintro ⟨hu, hrest⟩
    simp only [List.cons_append, List.drop_succ_cons, List.drop_zero] at hrest
    rcases hrest with hrest | hrest
    · exact absurd hrest (by simp)
    · cases as with
      | nil =>
        simp only [List.nil_append, headChar, List.headD_cons] at hrest
        exact absurd hrest (by decide)
      | cons b bs =>
        simp only [List.cons_append, headChar, List.headD_cons] at hrest
        exact absurd hrest (by simp [hs b (List.mem_cons_of_mem _ (List.mem_cons_self _ _))])

/-- First character of a non-empty modelled C string. -/
theorem headChar_cons (c : Char) (l : List Char) : headChar (c :: l) = c := rfl

/-- A list headed by the separator is never headed by a digit. -/
theorem colonHead_nondigit (l : List Char) :
    ∀ c, (':' :: l).head? = some c → isdigitC c = false := by
  intro c h
  rw [List.head?_cons] at h
  injection h with h
  subst h
  decide

/-- The type-suffix test of `set_correctness` on a tuple that continues with
a separator, stated in the normal form produced by the simplifier. -/
theorem uCheck_norm (refid s : List Char) (h0 : refid ≠ [])
    (hws : ∀ c ∈ refid, isspaceC c = false) :
    ¬(headChar (refid ++ ':' :: s) = 'u' ∧
      ((refid ++ ':' :: s).tail = [] ∨
        isspaceC (headChar ((refid ++ ':' :: s).tail)) = true)) := by
  cases refid with
  | nil => exact absurd rfl h0
  | cons a as =>
    rintro ⟨-, hrest⟩
    simp only [List.cons_append, List.tail_cons] at hrest
    rcases hrest with hrest | hrest
    · exact absurd hrest (by simp)
    · cases as with
      | nil =>
        simp only [List.nil_append, headChar_cons] at hrest
        exact absurd hrest (by decide)
      | cons b bs =>
        simp only [List.cons_append, headChar_cons] at hrest
        exact absurd hrest
          (by simp [hws b (List.mem_cons_of_mem _ (List.mem_cons_self _ _))])

/-- Symbolic execution of the simulator-name branch of `set_correctness` for
a record that is not a second mate: the result is `1` exactly when the
encoded reference name equals `rname`, the encoded strand matches and the
encoded offset is within `wiggle` of `pos - 1`, and `0` otherwise. -/
theorem simDecide_not2 (refid rname typ : List Char) (fwe fwa : Bool)
    (refoff pos : Nat) (score wiggle : Int)
    (hrc : (':' : Char) ∉ refid) (hnc : (':' : Char) ∉ rname)
    (hoff : refoff < 2 ^ 31) (hpos1 : 1 ≤ pos) (hpos2 : pos ≤ 2 ^ 31) :
    simDecide (':' :: (refid ++ ':' :: fwChar fwe :: ':' ::
        (decChars refoff ++ ':' :: (decCharsInt score ++ ':' :: typ))))
        rname pos fwa false wiggle =
      if refid = rname ∧ fwe = fwa ∧ |(refoff : Int) - ((pos : Int) - 1)| < wiggle
      then 1 else 0 := by
  have hparse : parseDigitsFrom 0 (decChars refoff ++ ':' ::
      (decCharsInt score ++ ':' :: typ)) =
      (refoff, ':' :: (decCharsInt score ++ ':' :: typ)) :=
    parse_decChars refoff _ (colonHead_nondigit _)
  have hskip : skipScore (decCharsInt score ++ ':' :: typ) = ':' :: typ :=
    skipScore_enc score _ (colonHead_nondigit _)
  have habs : cAbsDiff refoff (sub64 pos 1) = |(refoff : Int) - ((pos : Int) - 1)| := by
    rw [sub64_small pos 1 hpos1 (by omega),
      cAbsDiff_small refoff (pos - 1) hoff (by omega)]
    congr 1
    omega
  by_cases hrr : refid = rname
  · subst hrr
    by_cases hfw : fwe = fwa
    · subst hfw
      by_cases hw : |(refoff : Int) - ((pos : Int) - 1)| < wiggle
      · rw [if_pos ⟨rfl, rfl, hw⟩]
        simp [simDecide, sim_sep, List.drop_left, isPrefixOf_self_append,
          headChar_cons, hparse, hskip, habs, hw.not_le]
      · rw [if_neg (fun hcon => hw hcon.2.2)]
        simp [simDecide, sim_sep, List.drop_left, isPrefixOf_self_append,
          headChar_cons, hparse, hskip, habs, not_lt.mp hw]
    · rw [if_neg (fun hcon => hfw hcon.2.1)]
      have hfc : fwChar fwe ≠ fwChar fwa := fun h => hfw ((fwChar_inj _ _).mp h)
      simp [simDecide, sim_sep, List.drop_left, isPrefixOf_self_append,
        headChar_cons, hparse, hskip, habs, hfc]
  · rw [if_neg (fun hcon => hrr hcon.1)]
    by_cases hpre : rname.isPrefixOf (refid ++ ':' :: fwChar fwe :: ':' ::
        (decChars refoff ++ ':' :: (decCharsInt score ++ ':' :: typ))) = true
    · have hsep : ¬(([':'] : List Char) <+: ((refid ++ ':' :: fwChar fwe :: ':' ::
          (decChars refoff ++ ':' :: (decCharsInt score ++ ':' ::
            typ))).drop rname.length)) := by
        intro hsp
        refine hrr ((refid_gate refid rname _ hrc hnc).mp ⟨hpre, ?_⟩)
        rw [List.isPrefixOf_iff_prefix]
        simpa [sim_sep] using hsp
      simp [simDecide, sim_sep, hpre, hsep]
    · have hpreb : ¬(rname <+: (refid ++ ':' :: fwChar fwe :: ':' ::
          (decChars refoff ++ ':' :: (decCharsInt score ++ ':' :: typ)))) :=
        fun h => hpre (List.isPrefixOf_iff_prefix.mpr h)
      simp [simDecide, sim_sep, hpreb]

/-- Symbolic execution of the simulator-name branch of `set_correctness` for
a second mate: the first tuple of the pair name is skipped (its reference
name only has to have the length of `rname`), and the verdict is computed
from the second tuple's fields. -/
theorem simDecide_m2 (refid1 refid rname typ : List Char) (fw1 fwe fwa : Bool)
    (refoff1 refoff pos : Nat) (score1 score wiggle : Int)
    (hlen : rname.length = refid1.length)
    (hrc : (':' : Char) ∉ refid) (hnc : (':' : Char) ∉ rname)
    (h0 : refid ≠ []) (hws : ∀ c ∈ refid, isspaceC c = false)
    (hoff : refoff < 2 ^ 31) (hpos1 : 1 ≤ pos) (hpos2 : pos ≤ 2 ^ 31) :
    simDecide (':' :: (refid1 ++ ':' :: fwChar fw1 :: ':' ::
        (decChars refoff1 ++ ':' :: (decCharsInt score1 ++ ':' ::
        (refid ++ ':' :: fwChar fwe :: ':' ::
        (decChars refoff ++ ':' :: (decCharsInt score ++ ':' :: typ)))))))
        rname pos fwa true wiggle =
      if refid = rname ∧ fwe = fwa ∧ |(refoff : Int) - ((pos : Int) - 1)| < wiggle
      then 1 else 0 := by
  have hd1 : (refid1 ++ ':' :: fwChar fw1 :: ':' ::
      (decChars refoff1 ++ ':' :: (decCharsInt score1 ++ ':' ::
      (refid ++ ':' :: fwChar fwe :: ':' ::
      (decChars refoff ++ ':' :: (decCharsInt score ++ ':' ::
        typ)))))).drop rname.length =
      ':' :: fwChar fw1 :: ':' ::
      (decChars refoff1 ++ ':' :: (decCharsInt score1 ++ ':' ::
      (refid ++ ':' :: fwChar fwe :: ':' ::
      (decChars refoff ++ ':' :: (decCharsInt score ++ ':' :: typ))))) := by
    rw [hlen]
    exact List.drop_left _ _
  have hparse1 : parseDigitsFrom 0 (decChars refoff1 ++ ':' ::
      (decCharsInt score1 ++ ':' :: (refid ++ ':' :: fwChar fwe :: ':' ::
      (decChars refoff ++ ':' :: (decCharsInt score ++ ':' :: typ))))) =
      (refoff1, ':' :: (decCharsInt score1 ++ ':' ::
      (refid ++ ':' :: fwChar fwe :: ':' ::
      (decChars refoff ++ ':' :: (decCharsInt score ++ ':' :: typ))))) :=
    parse_decChars refoff1 _ (colonHead_nondigit _)
  have hskip1 : skipScore (decCharsInt score1 ++ ':' ::
      (refid ++ ':' :: fwChar fwe :: ':' ::
      (decChars refoff ++ ':' :: (decCharsInt score ++ ':' :: typ)))) =
      ':' :: (refid ++ ':' :: fwChar fwe :: ':' ::
      (decChars refoff ++ ':' :: (decCharsInt score ++ ':' :: typ))) :=
    skipScore_enc score1 _ (colonHead_nondigit _)
  have hparse2 : parseDigitsFrom 0 (decChars refoff ++ ':' ::
      (decCharsInt score ++ ':' :: typ)) =
      (refoff, ':' :: (decCharsInt score ++ ':' :: typ)) :=
    parse_decChars refoff _ (colonHead_nondigit _)
  have hskip2 : skipScore (decCharsInt score ++ ':' :: typ) = ':' :: typ :=
    skipScore_enc score _ (colonHead_nondigit _)
  have habs : cAbsDiff refoff (sub64 pos 1) = |(refoff : Int) - ((pos : Int) - 1)| := by
    rw [sub64_small pos 1 hpos1 (by omega),
      cAbsDiff_small refoff (pos - 1) hoff (by omega)]
    congr 1
    omega
  have huC := uCheck_norm refid (fwChar fwe :: ':' ::
    (decChars refoff ++ ':' :: (decCharsInt score ++ ':' :: typ))) h0 hws
  by_cases hrr : refid = rname
  · subst hrr
    by_cases hfw : fwe = fwa
    · subst hfw
      by_cases hw : |(refoff : Int) - ((pos : Int) - 1)| < wiggle
      · rw [if_pos ⟨rfl, rfl, hw⟩]
        simp [simDecide, sim_sep, hd1, List.drop_left, isPrefixOf_self_append,
          headChar_cons, hparse1, hskip1, hparse2, hskip2, habs, hw.not_le, huC]
      · rw [if_neg (fun hcon => hw hcon.2.2)]
        simp [simDecide, sim_sep, hd1, List.drop_left, isPrefixOf_self_append,
          headChar_cons, hparse1, hskip1, hparse2, hskip2, habs, not_lt.mp hw, huC]
    · rw [if_neg (fun hcon => hfw hcon.2.1)]
      have hfc : fwChar fwe ≠ fwChar fwa := fun h => hfw ((fwChar_inj _ _).mp h)
      simp [simDecide, sim_sep, hd1, List.drop_left, isPrefixOf_self_append,
        headChar_cons, hparse1, hskip1, hparse2, hskip2, habs, hfc, huC]
  · rw [if_neg (fun hcon => hrr hcon.1)]
    by_cases hpre : rname.isPrefixOf (refid ++ ':' :: fwChar fwe :: ':' ::
        (decChars refoff ++ ':' :: (decCharsInt score ++ ':' :: typ))) = true
    · have hsep : ¬(([':'] : List Char) <+: ((refid ++ ':' :: fwChar fwe :: ':' ::
          (decChars refoff ++ ':' :: (decCharsInt score ++ ':' ::
            typ))).drop rname.length)) := by
        intro hsp
        refine hrr ((refid_gate refid rname _ hrc hnc).mp ⟨hpre, ?_⟩)
        rw [List.isPrefixOf_iff_prefix]
        simpa [sim_sep] using hsp
      simp [simDecide, sim_sep, hd1, List.drop_left, isPrefixOf_self_append,
        headChar_cons, hparse1, hskip1, hparse2, hskip2, huC, hpre, hsep]
    · have hpreb : ¬(rname <+: (refid ++ ':' :: fwChar fwe :: ':' ::
          (decChars refoff ++ ':' :: (decCharsInt score ++ ':' :: typ)))) :=
        fun h => hpre (List.isPrefixOf_iff_prefix.mpr h)
      simp [simDecide, sim_sep, hd1, List.drop_left, isPrefixOf_self_append,
        headChar_cons, hparse1, hskip1, huC, hpreb]

/-- An unpaired simulated name starts with the simulator's prefix. -/
theorem simNameUnp_startswith (refid : List Char) (fwe : Bool) (refoff : Nat)
    (score : Int) (typ : List Char) :
    sim_startswith.isPrefixOf (simNameUnp refid fwe refoff score typ) = true := by
  simp only [simNameUnp, List.append_assoc]
  exact isPrefixOf_self_append _ _

/-- An unpaired simulated name after the simulator's prefix. -/
theorem simNameUnp_drop (refid : List Char) (fwe : Bool) (refoff : Nat)
    (score : Int) (typ : List Char) :
    (simNameUnp refid fwe refoff score typ).drop sim_startswith.length =
      ':' :: (refid ++ ':' :: fwChar fwe :: ':' ::
        (decChars refoff ++ ':' :: (decCharsInt score ++ ':' :: typ))) := by
  simp only [simNameUnp, sim_sep, List.append_assoc, List.singleton_append,
    List.cons_append]
  exact List.drop_left _ _

/-- A paired simulated name starts with the simulator's prefix. -/
theorem simNamePair_startswith (refid1 : List Char) (fw1 : Bool) (refoff1 : Nat)
    (score1 : Int) (refid2 : List Char) (fw2 : Bool) (refoff2 : Nat)
    (score2 : Int) (typ : List Char) :
    sim_startswith.isPrefixOf (simNamePair refid1 fw1 refoff1 score1
      refid2 fw2 refoff2 score2 typ) = true := by
  simp only [simNamePair, List.append_assoc]
  exact isPrefixOf_self_append _ _

/-- A paired simulated name after the simulator's prefix. -/
theorem simNamePair_drop (refid1 : List Char) (fw1 : Bool) (refoff1 : Nat)
    (score1 : Int) (refid2 : List Char) (fw2 : Bool) (refoff2 : Nat)
    (score2 : Int) (typ : List Char) :
    (simNamePair refid1 fw1 refoff1 score1 refid2 fw2 refoff2 score2
        typ).drop sim_startswith.length =
      ':' :: (refid1 ++ ':' :: fwChar fw1 :: ':' ::
        (decChars refoff1 ++ ':' :: (decCharsInt score1 ++ ':' ::
        (refid2 ++ ':' :: fwChar fw2 :: ':' ::
        (decChars refoff2 ++ ':' :: (decCharsInt score2 ++ ':' :: typ)))))) := by
  simp only [simNamePair, sim_sep, List.append_assoc, List.singleton_append,
    List.cons_append]
  exact List.drop_left _ _

/-- C3.  `set_correctness` on a simulator-encoded read name.  Corrected
statement: reaching `correct = 1` additionally requires the reference name
encoded in the read name to match the record's `rname` (checked as a prefix
comparison followed by a separator check); with that condition added, an
unpaired or first-mate record gets `correct = 1` exactly when the name
matches, the strand matches and the encoded offset is within `wiggle` of
`pos - 1`, else `0`; a second mate is judged by the second tuple of the
name (the first tuple's reference name only has to have the length of
`rname`); a name with neither the simulator's prefix nor the wgsim shape
leaves `correct = -1`. -/
theorem C3_simulated_correctness (refid rname typ : List Char) (fwe : Bool)
    (refoff pos : Nat) (score wiggle : Int) (flag : Nat)
    (refid1 : List Char) (fw1 : Bool) (refoff1 : Nat) (score1 : Int)
    (qname : List Char)
    (hrc : (':' : Char) ∉ refid) (hnc : (':' : Char) ∉ rname)
    (h0 : refid ≠ []) (hws : ∀ c ∈ refid, isspaceC c = false)
    (hoff : refoff < 2 ^ 31) (hpos1 : 1 ≤ pos) (hpos2 : pos ≤ 2 ^ 31) :
    (mate_flag flag ≠ '2' →
      set_correctness (simNameUnp refid fwe refoff score typ) rname flag pos
          wiggle =
        if refid = rname ∧ fwe = is_fw flag ∧
            |(refoff : Int) - ((pos : Int) - 1)| < wiggle then 1 else 0) ∧
    (mate_flag flag = '2' → rname.length = refid1.length →
      set_correctness (simNamePair refid1 fw1 refoff1 score1
          refid fwe refoff score typ) rname flag pos wiggle =
        if refid = rname ∧ fwe = is_fw flag ∧
            |(refoff : Int) - ((pos : Int) - 1)| < wiggle then 1 else 0) ∧
    (sim_startswith.isPrefixOf qname ≠ true →
      ¬(8 ≤ qname.count '_' ∧ qname.count ':' = 4) →
      set_correctness qname rname flag pos wiggle = -1) := by
  refine ⟨?_, ?_, ?_⟩
  · intro hm2
    have hm2b : decide (mate_flag flag = '2') = false := decide_eq_false hm2
    simp only [set_correctness]
    rw [simNameUnp_startswith, if_pos rfl, hm2b, simNameUnp_drop]
    exact simDecide_not2 refid rname typ fwe (is_fw flag) refoff pos score
      wiggle hrc hnc hoff hpos1 hpos2
  · intro hm2 hlen
    have hm2b : decide (mate_flag flag = '2') = true := decide_eq_true hm2
    simp only [set_correctness]
    rw [simNamePair_startswith, if_pos rfl, hm2b, simNamePair_drop]
    exact simDecide_m2 refid1 refid rname typ fw1 fwe (is_fw flag) refoff1
      refoff pos score1 score wiggle hlen hrc hnc h0 hws hoff hpos1 hpos2
  · intro hq hcond
    simp only [set_correctness]
    rw [if_neg hq, if_neg hcond]

/-- On a mate-2 record of a simulated pair whose second tuple matches the
record, `set_correctness` returns 1: the theorem applied at concrete
values, hypotheses discharged by evaluation. -/
theorem C3_witness :
    set_correctness (simNamePair ['c', 'h', 'r', '9'] false 5 7
        ['c', 'h', 'r', '3'] true 999 (-12) ['u'])
      ['c', 'h', 'r', '3'] 128 1001 30 = 1 := by
  have h := (C3_simulated_correctness ['c', 'h', 'r', '3'] ['c', 'h', 'r', '3']
      ['u'] true 999 1001 (-12) 30 128 ['c', 'h', 'r', '9'] false 5 7 ['z']
      (by decide) (by decide) (by decide) (by decide) (by decide) (by decide)
      (by decide)).2.1 (by decide) (by decide)
  rw [h]
  decide

/-- The remaining-records view of a freshly constructed merger is the input
file list itself: the constructor's `advanceFile` loads each file's first
record into the head slot (or marks an empty file done). -/
theorem remOf_init (files : List (List Prediction)) :
    remOf ((mkMerger files).files) = files := by
  have h1 : ∀ recs : List Prediction,
      (if (initFS recs).done then [] else (initFS recs).pred :: (initFS recs).rest)
        = recs := by
    intro recs
    cases recs <;> rfl
  show remOf (files.map initFS) = files
  induction files with
  | nil => rfl
  | cons f fs ih =>
    simp only [List.map_cons, remOf] at ih ⊢
    rw [h1 f]
    exact congrArg (f :: ·) ih

/-- The fold of the merger's argmin scan agrees step by step with the fold
of the naive scan over the remaining-records view. -/
theorem scan_fold_eq (fss : List FileState) :
    ∀ (k : Nat) (acc : Int × Nat),
      (List.enumFrom k fss).foldl
        (fun acc p =>
          if ¬p.2.done ∧ p.2.pred.line < acc.2 then ((p.1 : Int), p.2.pred.line)
          else acc) acc =
      (List.enumFrom k (remOf fss)).foldl
        (fun acc p =>
          match p.2 with
          | [] => acc
          | r :: _ => if r.line < acc.2 then ((p.1 : Int), r.line) else acc) acc := by
  induction fss with
  | nil => intro k acc; rfl
  | cons fs rest ih =>
    intro k acc
    simp only [remOf, List.map_cons, List.enumFrom_cons, List.foldl_cons]
    cases hdone : fs.done
    · simp only [Bool.false_eq_true, not_false_eq_true, true_and, if_false]
      exact ih (k + 1) _
    · simp only [not_true, false_and, if_false, if_true]
      exact ih (k + 1) _

/-- The merger's argmin scan is the naive scan of the remaining records. -/
theorem scanArgmin_eq_naive (fss : List FileState) :
    scanArgmin fss = naiveScan (remOf fss) := by
  simp only [scanArgmin, naiveScan, List.enum_eq_enumFrom]
  exact scan_fold_eq fss 0 _

/-- The naive scan fold skips exhausted files. -/
theorem naive_fold_empty (rem : List (List Prediction)) :
    ∀ (k : Nat) (acc : Int × Nat), (∀ l ∈ rem, l = []) →
      (List.enumFrom k rem).foldl
        (fun acc p =>
          match p.2 with
          | [] => acc
          | r :: _ => if r.line < acc.2 then ((p.1 : Int), r.line) else acc) acc
        = acc := by
  induction rem with
  | nil => intro k acc _; rfl
  | cons l ls ih =>
    intro k acc h
    have hl : l = [] := h l (List.mem_cons_self _ _)
    subst hl
    simp only [List.enumFrom_cons, List.foldl_cons]
    exact ih (k + 1) acc (fun x hx => h x (List.mem_cons_of_mem _ hx))

/-- On fully exhausted files the naive scan reports no argmin. -/
theorem naiveScan_empty (rem : List (List Prediction))
    (h : ∀ l ∈ rem, l = []) : naiveScan rem = (-1, U64MAX) := by
  simp only [naiveScan, List.enum_eq_enumFrom]
  exact naive_fold_empty rem 0 _ h

/-- On fully exhausted files the naive merge step yields the sentinel and
leaves the state unchanged. -/
theorem naiveNext_empty (rem : List (List Prediction))
    (h : ∀ l ∈ rem, l = []) :
    naiveNext rem = (Prediction.sentinel, rem) := by
  simp [naiveNext, naiveScan_empty rem h]

/-- On fully exhausted files every naive merge step yields the sentinel. -/
theorem naiveRun_empty (rem : List (List Prediction))
    (h : ∀ l ∈ rem, l = []) :
    ∀ j, naiveRun rem j = List.replicate j Prediction.sentinel := by
  intro j
  induction j with
  | zero => rfl
  | succ j ih =>
    simp only [naiveRun, naiveNext_empty rem h, List.replicate_succ]
    exact congrArg (Prediction.sentinel :: ·) ih

/-- The naive scan fold only lowers the running minimum, and its result is
at most the head line of every remaining nonempty file. -/
theorem naive_fold_min (rem : List (List Prediction)) :
    ∀ (k : Nat) (acc : Int × Nat),
      ((List.enumFrom k rem).foldl
        (fun acc p =>
          match p.2 with
          | [] => acc
          | r :: _ => if r.line < acc.2 then ((p.1 : Int), r.line) else acc)
        acc).2 ≤ acc.2 ∧
      ∀ i m t, rem.getD i [] = m :: t →
        ((List.enumFrom k rem).foldl
          (fun acc p =>
            match p.2 with
            | [] => acc
            | r :: _ => if r.line < acc.2 then ((p.1 : Int), r.line) else acc)
          acc).2 ≤ m.line := by
  induction rem with
  | nil =>
    intro k acc
    refine ⟨le_refl _, ?_⟩
    intro i m t h
    simp [List.getD] at h
  | cons l ls ih =>
    intro k acc
    simp only [List.enumFrom_cons, List.foldl_cons]
    cases l with
    | nil =>
      obtain ⟨h1, h2⟩ := ih (k + 1) acc
      refine ⟨h1, ?_⟩
      intro i m t h
      cases i with
      | zero => simp at h
      | succ i => exact h2 i m t (by simpa using h)
    | cons m0 t0 =>
      dsimp only
      by_cases hc : m0.line < acc.2
      · rw [if_pos hc]
        obtain ⟨h1, h2⟩ := ih (k + 1) ((k : Int), m0.line)
        refine ⟨le_trans h1 (le_of_lt hc), ?_⟩
        intro i m t h
        cases i with
        | zero =>
          simp only [List.getD_cons_zero] at h
          injection h with hm _
          exact hm ▸ h1
        | succ i => exact h2 i m t (by simpa using h)
      · rw [if_neg hc]
        obtain ⟨h1, h2⟩ := ih (k + 1) acc
        refine ⟨h1, ?_⟩
        intro i m t h
        cases i with
        | zero =>
          simp only [List.getD_cons_zero] at h
          injection h with hm _
          exact hm ▸ le_trans h1 (not_lt.mp hc)
        | succ i => exact h2 i m t (by simpa using h)

/-- The naive scan fold either returns the accumulator unchanged or selects
the head of an actual nonempty file, reporting its index and line. -/
theorem naive_fold_sel (rem : List (List Prediction)) :
    ∀ (k : Nat) (acc : Int × Nat),
      (List.enumFrom k rem).foldl
        (fun acc p =>
          match p.2 with
          | [] => acc
          | r :: _ => if r.line < acc.2 then ((p.1 : Int), r.line) else acc)
        acc = acc ∨
      ∃ i m t, rem.getD i [] = m :: t ∧
        (List.enumFrom k rem).foldl
          (fun acc p =>
            match p.2 with
            | [] => acc
            | r :: _ => if r.line < acc.2 then ((p.1 : Int), r.line) else acc)
          acc = (((k + i : Nat) : Int), m.line) := by
  induction rem with
  | nil => intro k acc; exact Or.inl rfl
  | cons l ls ih =>
    intro k acc
    simp only [List.enumFrom_cons, List.foldl_cons]
    cases l with
    | nil =>
      rcases ih (k + 1) acc with h | ⟨i, m, t, hget, heq⟩
      · exact Or.inl h
      · refine Or.inr ⟨i + 1, m, t, by simpa using hget, ?_⟩
        rw [show k + 1 + i = k + (i + 1) from by omega] at heq
        exact heq
    | cons m0 t0 =>
      dsimp only
      by_cases hc : m0.line < acc.2
      · rw [if_pos hc]
        rcases ih (k + 1) ((k : Int), m0.line) with h | ⟨i, m, t, hget, heq⟩
        · refine Or.inr ⟨0, m0, t0, by simp, ?_⟩
          rw [h]
          simp
        · refine Or.inr ⟨i + 1, m, t, by simpa using hget, ?_⟩
          rw [show k + 1 + i = k + (i + 1) from by omega] at heq
          exact heq
      · rw [if_neg hc]
        rcases ih (k + 1) acc with h | ⟨i, m, t, hget, heq⟩
        · exact Or.inl h
        · refine Or.inr ⟨i + 1, m, t, by simpa using hget, ?_⟩
          rw [show k + 1 + i = k + (i + 1) from by omega] at heq
          exact heq

/-- When some file still holds a record every line of which is
representable, the naive scan selects the nonempty file with the least head
line. -/
theorem naiveScan_sel (rem : List (List Prediction))
    (hne : rem.flatten ≠ [])
    (hlow : ∀ p ∈ rem.flatten, p.line < U64MAX - 1) :
    ∃ i m t, i < rem.length ∧ rem.getD i [] = m :: t ∧
      naiveScan rem = ((i : Int), m.line) ∧
      ∀ j m' t', rem.getD j [] = m' :: t' → m.line ≤ m'.line := by
  obtain ⟨l0, hl0, hl0ne⟩ : ∃ l ∈ rem, l ≠ [] := by
    by_contra hall
    push_neg at hall
    exact hne (List.flatten_eq_nil_iff.mpr fun l hl =>
      not_not.mp (fun hn => hn (hall l hl)))
  obtain ⟨j0, hj0, hj0eq⟩ := List.mem_iff_getElem.mp hl0
  obtain ⟨m0, t0, hl0c⟩ : ∃ m t, l0 = m :: t := by
    cases l0 with
    | nil => exact absurd rfl hl0ne
    | cons a b => exact ⟨a, b, rfl⟩
  have hget0 : rem.getD j0 [] = m0 :: t0 := by
    rw [List.getD_eq_getElem rem [] hj0, hj0eq, hl0c]
  have hmin := naive_fold_min rem 0 (-1, U64MAX)
  have hsel := naive_fold_sel rem 0 (-1, U64MAX)
  rw [show (List.enumFrom 0 rem) = rem.enum from List.enum_eq_enumFrom.symm]
    at hmin hsel
  rcases hsel with h | ⟨i, m, t, hget, heq⟩
  · exfalso
    have hns : naiveScan rem = (-1, U64MAX) := h
    have h2 : (naiveScan rem).2 ≤ m0.line := hmin.2 j0 m0 t0 hget0
    rw [hns] at h2
    have h3 := hlow m0 (List.mem_flatten.mpr
      ⟨l0, hl0, by rw [hl0c]; exact List.mem_cons_self _ _⟩)
    simp only [U64MAX] at h2 h3
    omega
  · have hi : i < rem.length := by
      by_contra hge
      rw [List.getD_eq_default _ _ (le_of_not_lt hge)] at hget
      exact absurd hget (by simp)
    have hns : naiveScan rem = (((0 + i : Nat) : Int), m.line) := heq
    refine ⟨i, m, t, hi, hget, ?_, ?_⟩
    · simpa using hns
    · intro j m' t' hj
      have h2 : (naiveScan rem).2 ≤ m'.line := hmin.2 j m' t' hj
      rw [hns] at h2
      simpa using h2

/-- One naive merge step on well-formed non-exhausted files removes the
record with the overall least line: the yielded record heads a permutation
of the remaining records, is strictly below all surviving lines, and
well-formedness is preserved. -/
theorem naiveNext_step (rem : List (List Prediction)) (hWF : WFfiles rem)
    (hne : rem.flatten ≠ []) :
    ∃ m rem', naiveNext rem = (m, rem') ∧
      rem.flatten.Perm (m :: rem'.flatten) ∧
      (∀ p ∈ rem'.flatten, m.line < p.line) ∧
      WFfiles rem' ∧ rem'.flatten.length + 1 = rem.flatten.length := by
  obtain ⟨i, m, t, hi, hget, hscan, hmin⟩ := naiveScan_sel rem hne hWF.2.2
  have hine : ¬((i : Int) = -1) := by omega
  have hnx : naiveNext rem = (m, rem.set i t) := by
    simp only [naiveNext, hscan, if_neg hine, Int.toNat_natCast, hget]
  have hgE : rem[i] = m :: t := by
    rw [← List.getD_eq_getElem rem [] hi]
    exact hget
  have hmemMT : (m :: t) ∈ rem := by
    rw [← hgE]
    exact List.getElem_mem hi
  have hdrop : rem.drop i = (m :: t) :: rem.drop (i + 1) := by
    rw [← List.getElem_cons_drop rem i hi, hgE]
  have hdec : rem = rem.take i ++ (m :: t) :: rem.drop (i + 1) := by
    rw [← hdrop, List.take_append_drop]
  have hset : rem.set i t = rem.take i ++ t :: rem.drop (i + 1) :=
    List.set_eq_take_cons_drop t hi
  have hflat : rem.flatten =
      (rem.take i).flatten ++ m :: (t ++ (rem.drop (i + 1)).flatten) := by
    conv_lhs => rw [hdec]
    rw [List.flatten_append, List.flatten_cons]
    simp [List.append_assoc]
  have hflat' : (rem.set i t).flatten =
      (rem.take i).flatten ++ (t ++ (rem.drop (i + 1)).flatten) := by
    rw [hset, List.flatten_append, List.flatten_cons]
  have hperm : rem.flatten.Perm (m :: (rem.set i t).flatten) := by
    rw [hflat, hflat']
    exact @List.perm_middle _ m ((rem.take i).flatten)
      (t ++ (rem.drop (i + 1)).flatten)
  have hnd2 : ((m :: (rem.set i t).flatten).map Prediction.line).Nodup :=
    (hperm.map Prediction.line).nodup hWF.2.1
  rw [List.map_cons] at hnd2
  have hmem_all : ∀ p ∈ rem.flatten, m.line ≤ p.line := by
    intro p hp
    obtain ⟨l, hl, hpl⟩ := List.mem_flatten.mp hp
    obtain ⟨j, hj, hjeq⟩ := List.mem_iff_getElem.mp hl
    cases l with
    | nil => simp at hpl
    | cons hd tl =>
      have hgj : rem.getD j [] = hd :: tl := by
        rw [List.getD_eq_getElem rem [] hj, hjeq]
      have h1 : m.line ≤ hd.line := hmin j hd tl hgj
      rcases List.mem_cons.mp hpl with rfl | hptl
      · exact h1
      · haveI : IsTrans Prediction (fun p q => p.line < q.line) :=
          ⟨fun a b c h h' => lt_trans h h'⟩
        have hpw := List.chain'_iff_pairwise.mp (hWF.1 _ hl)
        exact le_of_lt (lt_of_le_of_lt h1 ((List.pairwise_cons.mp hpw).1 p hptl))
  have hstrict : ∀ p ∈ (rem.set i t).flatten, m.line < p.line := by
    intro p hp
    have hpin : p ∈ rem.flatten := hperm.mem_iff.mpr (List.mem_cons_of_mem _ hp)
    have hle := hmem_all p hpin
    have hne2 : p.line ≠ m.line := by
      intro hpe
      have hm := List.mem_map_of_mem Prediction.line hp
      rw [hpe] at hm
      exact (List.nodup_cons.mp hnd2).1 hm
    omega
  refine ⟨m, rem.set i t, hnx, hperm, hstrict, ⟨?_, ?_, ?_⟩, ?_⟩
  · intro f hf
    rcases List.mem_or_eq_of_mem_set hf with hf' | rfl
    · exact hWF.1 f hf'
    · exact (hWF.1 _ hmemMT).tail
  · show ((rem.set i t).flatten.map Prediction.line).Nodup
    exact (List.nodup_cons.mp hnd2).2
  · intro p hp
    exact hWF.2.2 p (hperm.mem_iff.mpr (List.mem_cons_of_mem _ hp))
  · have := hperm.length_eq
    simp only [List.length_cons] at this
    omega

/-- A naive merge step only discards records: the representability bound on
the remaining lines is preserved. -/
theorem naiveNext_low (rem : List (List Prediction))
    (hlow : ∀ p ∈ rem.flatten, p.line < U64MAX - 1) :
    ∀ p ∈ (naiveNext rem).2.flatten, p.line < U64MAX - 1 := by
  by_cases hc : (naiveScan rem).1 = -1
  · have hnx : (naiveNext rem).2 = rem := by
      simp only [naiveNext, if_pos hc]
    rw [hnx]
    exact hlow
  · rcases hm : rem.getD (naiveScan rem).1.toNat [] with _ | ⟨r, L0⟩
    · have hnx : (naiveNext rem).2 = rem := by
        simp only [naiveNext, if_neg hc, hm]
      rw [hnx]
      exact hlow
    · have ha : (naiveScan rem).1.toNat < rem.length := by
        by_contra hge
        rw [List.getD_eq_default _ _ (le_of_not_lt hge)] at hm
        exact absurd hm (by simp)
      have hnx : (naiveNext rem).2 = rem.set (naiveScan rem).1.toNat L0 := by
        simp only [naiveNext, if_neg hc, hm]
      intro p hp
      rw [hnx] at hp
      obtain ⟨L, hL, hpL⟩ := List.mem_flatten.mp hp
      rcases List.mem_or_eq_of_mem_set hL with hL' | heq
      · exact hlow p (List.mem_flatten.mpr ⟨L, hL', hpL⟩)
      · subst heq
        have hm2 : (r :: L) ∈ rem := by
          rw [← hm, List.getD_eq_getElem rem [] ha]
          exact List.getElem_mem ha
        exact hlow p (List.mem_flatten.mpr ⟨r :: L, hm2,
          List.mem_cons_of_mem _ hpL⟩)

/-- Bisimulation step: from a state whose fast path is off and whose
remaining lines are representable, `next()` yields the same record as the
naive merge on the remaining-records view, leaves the fast path off (the
end-of-file refresh loads the `UINT64_MAX` sentinel, which can never equal
`line + 1`), and tracks the naive state. -/
theorem mergerNext_agrees (s : MergerState) (hn : s.next_ = -1)
    (hlow : ∀ p ∈ (remOf s.files).flatten, p.line < U64MAX - 1) :
    (mergerNext s).1 = (naiveNext (remOf s.files)).1 ∧
    (mergerNext s).2.next_ = -1 ∧
    remOf (mergerNext s).2.files = (naiveNext (remOf s.files)).2 := by
  have hge : ¬(s.next_ ≥ 0) := by rw [hn]; omega
  by_cases hall : ∀ l ∈ remOf s.files, l = []
  · have hscan : scanArgmin s.files = (-1, U64MAX) := by
      rw [scanArgmin_eq_naive]
      exact naiveScan_empty _ hall
    have h1 : mergerNext s = (Prediction.sentinel, s) := by
      simp only [mergerNext, if_neg hge, hscan, if_pos rfl, if_true]
    have h2 : naiveNext (remOf s.files) = (Prediction.sentinel, remOf s.files) :=
      naiveNext_empty _ hall
    rw [h1, h2]
    exact ⟨rfl, hn, rfl⟩
  · have hne : (remOf s.files).flatten ≠ [] := fun h =>
      hall (List.flatten_eq_nil_iff.mp h)
    obtain ⟨i, m, t, hi, hget, hscan, hmin⟩ := naiveScan_sel (remOf s.files) hne hlow
    have hine : ¬((i : Int) = -1) := by omega
    have hnaive : naiveNext (remOf s.files) = (m, (remOf s.files).set i t) := by
      simp only [naiveNext, hscan, if_neg hine, Int.toNat_natCast, hget]
    have hilen : i < s.files.length := by
      have hL : (remOf s.files).length = s.files.length := by
        simp [remOf]
      omega
    have hfs_eq : s.files.getD i FileState.oob = s.files[i] :=
      List.getD_eq_getElem _ _ hilen
    have hrem_i : (remOf s.files).getD i [] =
        (if (s.files[i]).done then []
         else (s.files[i]).pred :: (s.files[i]).rest) := by
      rw [List.getD_eq_getElem _ _ hi]
      simp [remOf]
    have hcase := hrem_i.symm.trans hget
    have hdone : (s.files[i]).done = false := by
      cases hb : (s.files[i]).done
      · rfl
      · rw [hb] at hcase
        simp at hcase
    rw [hdone] at hcase
    simp only [Bool.false_eq_true, if_false] at hcase
    have hpred : (s.files[i]).pred = m := by
      injection hcase
    have hrest : (s.files[i]).rest = t := by
      injection hcase
    have hsc : scanArgmin s.files = ((i : Int), m.line) := by
      rw [scanArgmin_eq_naive, hscan]
    have hremset : ∀ x : FileState, remOf (s.files.set i x) =
        (remOf s.files).set i (if x.done then [] else x.pred :: x.rest) := by
      intro x
      simp only [remOf, List.map_set]
    have hmL : m.line < U64MAX - 1 := by
      refine hlow m (List.mem_flatten.mpr ⟨m :: t, ?_, List.mem_cons_self _ _⟩)
      rw [← hget, List.getD_eq_getElem _ _ hi]
      exact List.getElem_mem hi
    cases ht : t with
    | nil =>
      have hneq : Prediction.sentinel.line ≠ (m.line + 1) % 2 ^ 64 := by
        have hmod : (m.line + 1) % 2 ^ 64 = m.line + 1 :=
          Nat.mod_eq_of_lt (by simp only [U64MAX] at hmL; omega)
        rw [hmod]
        simp only [Prediction.sentinel, U64MAX] at hmL ⊢
        omega
      have hmerge : mergerNext s =
          (m, ⟨s.files.set i ⟨Prediction.sentinel, [], true⟩, -1⟩) := by
        rw [ht] at hrest
        simp only [mergerNext, if_neg hge, hsc, if_neg hine, Int.toNat_natCast,
          hfs_eq, hdone, hpred, hrest, advanceFileFS, Bool.false_eq_true,
          if_false, if_neg hneq]
      rw [hmerge, hnaive, hremset]
      refine ⟨rfl, rfl, ?_⟩
      simp [ht]
    | cons r rs =>
      rw [ht] at hrest
      have hmerge : mergerNext s =
          (m, ⟨s.files.set i ⟨r, rs, false⟩, -1⟩) := by
        simp only [mergerNext, if_neg hge, hsc, if_neg hine, Int.toNat_natCast,
          hfs_eq, hdone, hpred, hrest, advanceFileFS, Bool.false_eq_true,
          if_false, eq_self_iff_true, if_true]
      rw [hmerge, hnaive, hremset]
      refine ⟨rfl, rfl, ?_⟩
      simp [ht]

/-- Run-level bisimulation: from a fast-path-off state with representable
lines, any number of `next()` calls produces the naive merge trace and never
turns the fast path on. -/
theorem merger_run_eq (n : Nat) :
    ∀ s : MergerState, s.next_ = -1 →
      (∀ p ∈ (remOf s.files).flatten, p.line < U64MAX - 1) →
      mergerRun s n = naiveRun (remOf s.files) n ∧
        (mergerSteps s n).next_ = -1 := by
  induction n with
  | zero => intro s hn _; exact ⟨rfl, hn⟩
  | succ n ih =>
    intro s hn hlow
    obtain ⟨h1, h2, h3⟩ := mergerNext_agrees s hn hlow
    have hlow' : ∀ p ∈ (remOf (mergerNext s).2.files).flatten,
        p.line < U64MAX - 1 := by
      rw [h3]
      exact naiveNext_low (remOf s.files) hlow
    obtain ⟨ih1, ih2⟩ := ih (mergerNext s).2 h2 hlow'
    constructor
    · simp only [mergerRun, naiveRun]
      rw [h1, ih1, h3]
    · simp only [mergerSteps]
      exact ih2

/-- The naive merge on well-formed files emits all records in strictly
ascending line order and then yields only sentinels. -/
theorem naiveRun_spec (N : Nat) :
    ∀ rem : List (List Prediction), WFfiles rem →
      rem.flatten.length = N → ∀ j : Nat,
        ∃ A, naiveRun rem (N + j) = A ++ List.replicate j Prediction.sentinel ∧
          rem.flatten.Perm A ∧
          List.Chain' (fun p q => p.line < q.line) A := by
  induction N with
  | zero =>
    intro rem hWF hlen j
    have hemp : ∀ l ∈ rem, l = [] :=
      List.flatten_eq_nil_iff.mp (List.length_eq_zero.mp hlen)
    refine ⟨[], ?_, ?_, List.chain'_nil⟩
    · rw [List.nil_append]
      have := naiveRun_empty rem hemp (0 + j)
      simpa using this
    · rw [List.length_eq_zero.mp hlen]
  | succ N ih =>
    intro rem hWF hlen j
    have hne : rem.flatten ≠ [] := by
      intro h
      rw [h] at hlen
      simp at hlen
    obtain ⟨m, rem', hnext, hperm, hminp, hWF', hlen'⟩ := naiveNext_step rem hWF hne
    have hlen'' : rem'.flatten.length = N := by omega
    obtain ⟨A', hrun, hperm', hchain⟩ := ih rem' hWF' hlen'' j
    refine ⟨m :: A', ?_, ?_, ?_⟩
    · have hstep : N + 1 + j = (N + j) + 1 := by omega
      rw [hstep]
      simp only [naiveRun, hnext]
      rw [hrun]
      rfl
    · exact hperm.trans (List.Perm.cons m hperm')
    · rw [List.chain'_cons']
      refine ⟨?_, hchain⟩
      intro y hy
      exact hminp y (hperm'.mem_iff.mpr (List.mem_of_mem_head? hy))

/-- C4.  On a well-formed collection of prediction files (each strictly
ascending in line, no line repeated across files, all lines representable),
the merger emits a strictly ascending permutation of all records of all
files - exactly their total count - and every call after exhaustion returns
the invalid sentinel whose line is `UINT64_MAX`. -/
theorem C4_merger_sorted_complete (files : List (List Prediction))
    (hWF : WFfiles files) (j : Nat) :
    ∃ A, mergerRun (mkMerger files) (files.flatten.length + j) =
        A ++ List.replicate j Prediction.sentinel ∧
      files.flatten.Perm A ∧
      List.Chain' (fun p q => p.line < q.line) A ∧
      A.length = files.flatten.length := by
  have hrm : remOf (mkMerger files).files = files := remOf_init files
  have hrun := (merger_run_eq (files.flatten.length + j) (mkMerger files) rfl
    (by rw [hrm]; exact hWF.2.2)).1
  rw [hrm] at hrun
  obtain ⟨A, h1, h2, h3⟩ := naiveRun_spec files.flatten.length files hWF rfl j
  exact ⟨A, hrun.trans h1, h2, h3, h2.length_eq.symm⟩

/-- The C4 theorem applied to two concrete ascending files and two
post-exhaustion calls. -/
theorem C4_witness :
    ∃ A, mergerRun (mkMerger [[⟨1, 0⟩, ⟨3, 0⟩], [⟨2, 0⟩]]) (3 + 2) =
        A ++ List.replicate 2 Prediction.sentinel ∧
      ([[(⟨1, 0⟩ : Prediction), ⟨3, 0⟩], [⟨2, 0⟩]] :
        List (List Prediction)).flatten.Perm A ∧
      List.Chain' (fun p q => p.line < q.line) A ∧
      A.length = 3 :=
  C4_merger_sorted_complete [[⟨1, 0⟩, ⟨3, 0⟩], [⟨2, 0⟩]]
    ⟨by simp, by decide, by decide⟩ 2

/-- C10.  On files whose line ordinals are representable (strictly below
`UINT64_MAX - 1`), the guard that arms the fast path never fires: after any
number of calls `next_` is still -1, and the merger's output trace is
exactly that of the naive linear-argmin merge. -/
theorem C10_fast_path_inert (files : List (List Prediction))
    (hlow : ∀ p ∈ files.flatten, p.line < U64MAX - 1) (n : Nat) :
    (mergerSteps (mkMerger files) n).next_ = -1 ∧
    mergerRun (mkMerger files) n = naiveRun files n := by
  have hrm : remOf (mkMerger files).files = files := remOf_init files
  obtain ⟨h1, h2⟩ := merger_run_eq n (mkMerger files) rfl
    (by rw [hrm]; exact hlow)
  rw [hrm] at h1
  exact ⟨h2, h1⟩

/-- The C10 theorem applied to two concrete files, run past exhaustion. -/
theorem C10_witness :
    (mergerSteps (mkMerger [[⟨1, 0⟩, ⟨3, 0⟩], [⟨2, 0⟩]]) 5).next_ = -1 ∧
    mergerRun (mkMerger [[⟨1, 0⟩, ⟨3, 0⟩], [⟨2, 0⟩]]) 5 =
      naiveRun [[⟨1, 0⟩, ⟨3, 0⟩], [⟨2, 0⟩]] 5 :=
  C10_fast_path_inert [[⟨1, 0⟩, ⟨3, 0⟩], [⟨2, 0⟩]] (by decide) 5

/-- The original C3 claim omits the reference-name comparison: a record
whose name encodes the matching position and strand on `chr3` but which is
reported aligned to `chr4` gets `correct = 0` although the claimed offset
and strand conditions hold. -/
theorem C3_counterexample :
    set_correctness (simNameUnp ['c', 'h', 'r', '3'] true 1000 (-12) ['u'])
        ['c', 'h', 'r', '4'] 0 1001 30 = 0 ∧
      mate_flag 0 ≠ '2' ∧ is_fw 0 = true ∧
      |(1000 : Int) - ((1001 : Int) - 1)| < 30 := by
  constructor
  · decide
  · refine ⟨by decide, by decide, by decide⟩

end Qtip
